import Mathlib

/-!
Verification development for the fraimwork repository: a shallow embedding of
the streaming tool-call scanner (`LLMService.handleStreamingWithToolParsing`),
the tool-call extractor (`LLMService.parseToolCallsFromText`), the multi-hop
tool dispatch loop (`Agent.send` / `Agent.processReply`) and the failover
controller (`FailoverAgent.send`), together with theorems settling the
specification claims about them.

Strings are modelled as `List Char` where character-level induction is needed
and as `String` elsewhere.  JavaScript wall-clock reads (`Date.now()`) are
modelled by an oracle `clock : Nat → Nat` indexed by the number of prior
reads.  JavaScript exceptions are modelled by `Except`/`Option` results.
-/

namespace Fraimwork

/-! ## Generic character and list helpers -/

/-- The whitespace class of JavaScript regex `\s` (the code points relevant
to this code base; the exotic Unicode space separators behave identically). -/
def jsWhitespace (c : Char) : Bool :=
  c = ' ' ∨ c = '\t' ∨ c = '\n' ∨ c = '\r' ∨ c = '\x0b' ∨ c = '\x0c' ∨
  c = ' ' ∨ c = ' ' ∨ c = ' ' ∨ c = '﻿'

/-- ASCII lower-casing (code points 65-90 shifted by 32), the fragment of
`String.prototype.toLowerCase` and of the regex `i` flag exercised by the
tag literals. -/
def lowChar (c : Char) : Char :=
  if 65 ≤ c.toNat ∧ c.toNat ≤ 90 then Char.ofNat (c.toNat + 32) else c

def lowList (s : List Char) : List Char := s.map lowChar

def lowStr (s : String) : String := ⟨lowList s.data⟩

/-- `pat` occurs as a contiguous substring of `s` (JavaScript
`String.prototype.includes`, also the truthiness of an unanchored literal
regex search). -/
def containsSub (pat : List Char) : List Char → Bool
  | [] => pat.isEmpty
  | s@(_ :: rest) => pat.isPrefixOf s || containsSub pat rest

/-- In-place update of the `i`-th element of a list (models mutating one
entry of a JavaScript array of objects). -/
def updateAt {α : Type} : List α → Nat → (α → α) → List α
  | [], _, _ => []
  | a :: as, 0, f => f a :: as
  | a :: as, n + 1, f => a :: updateAt as n f

/-! ## JSON values (results of `JSON.parse`) -/

/-- JavaScript values produced by `JSON.parse`.  Numbers are represented by
their source lexeme (exact for the canonical integer literals that occur in
the claims). -/
inductive Json where
  | null
  | bool (b : Bool)
  | num (lexeme : String)
  | str (s : String)
  | arr (elems : List Json)
  | obj (fields : List (String × Json))

/-- Property lookup on a parsed value: only objects carry fields; duplicate
keys follow `JSON.parse`, the last binding wins.  `none` models the
JavaScript `undefined`. -/
def getField : Json → String → Option Json
  | .obj fs, k => (fs.reverse.find? (fun p => p.1 = k)).map Prod.snd
  | _, _ => none

/-- `a ?? b` (nullish coalescing): fall through on `undefined` and `null`. -/
def jsCoalesce (a b : Option Json) : Option Json :=
  match a with
  | none => b
  | some .null => b
  | some v => some v

/-- Template-literal stringification of a possibly-undefined value. -/
def jsShow : Option Json → String
  | none => "undefined"
  | some .null => "null"
  | some (.bool true) => "true"
  | some (.bool false) => "false"
  | some (.num lx) => lx
  | some (.str s) => s
  | some (.obj _) => "[object Object]"
  | some (.arr l) => String.intercalate "," (l.map (fun e =>
      match e with
      | .null => ""
      | .bool true => "true"
      | .bool false => "false"
      | .num lx => lx
      | .str s => s
      | _ => "[object Object]"))

/-! ## Messages and tool calls (`Message.ts`, `ToolCall.ts`, `ToolMessage.ts`) -/

inductive Role where
  | user
  | assistant
  | system
  | tool

/-- `ToolCall` from `ToolCall.ts`.  Although the TypeScript signature declares
`id`/`name` as strings, values flowing from `JSON.parse` are arbitrary, so
the fields are modelled as `Json`. -/
structure ToolCall where
  id : Json
  name : Json
  args : Json
  result : Option String := none

/-- `Message` from `Message.ts`; `toolCallId` is the extra field of the
subclass `ToolMessage`. -/
structure Message where
  role : Role
  content : String
  toolCalls : Option (List ToolCall) := none
  toolCallId : Option Json := none

/-- `ToolCall.message`: `new ToolMessage(this.result || "", this.id)`. -/
def ToolCall.message (tc : ToolCall) : Message :=
  { role := .tool
    content := match tc.result with
      | some s => s
      | none => ""
    toolCalls := none
    toolCallId := some tc.id }

/-! ## Failover controller (`FailoverAgent.ts`) -/

/-- A thrown provider error, as inspected by `isRateLimitError`:
`error.status`, `error.code` and `error.message`.  Absent fields are `none`. -/
structure FailError where
  status : Option Nat := none
  code : Option Nat := none
  message : String := ""

/-- `error.status || error.code` (`0` is falsy). -/
def errorCode (e : FailError) : Option Nat :=
  match e.status with
  | some s => if s = 0 then e.code else some s
  | none => e.code

def rateLimitIndicators : List String :=
  ["rate limit", "quota exceeded", "too many requests", "rate_limit_exceeded",
   "quota_exceeded", "requests per minute", "rpm limit"]

/-- `FailoverAgent.isRateLimitError`. -/
def isRateLimitError (e : FailError) : Bool :=
  let errorMessage := lowStr e.message
  if errorCode e = some 429 then true
  else rateLimitIndicators.any (fun ind => containsSub ind.data errorMessage.data)

/-- Per-service bookkeeping (`ServiceStatus`); the service reference itself
is irrelevant to the claims and omitted.  `lastFailure` stores the clock
value at the recording failure (wall clock modelled by the attempt index). -/
structure ServiceStat where
  failureCount : Nat := 0
  lastFailure : Option Nat := none

/-- Mutable controller state: the service array and the index of
`currentService` within it (`services.indexOf(this.currentService)`). -/
structure FState where
  services : List ServiceStat
  currentIndex : Nat := 0

/-- `recordServiceFailure` at time `t`: increment the current service's
failure count and set its `lastFailure`. -/
def recordServiceFailure (st : FState) (t : Nat) : FState :=
  let upd : ServiceStat → ServiceStat :=
    fun sv => { failureCount := sv.failureCount + 1, lastFailure := some t }
  { st with services := updateAt st.services st.currentIndex upd }

/-- `rotateToNextService`: advance to `(currentIndex + 1) % services.length`. -/
def rotateToNextService (st : FState) : FState :=
  { st with currentIndex := (st.currentIndex + 1) % st.services.length }

/-- Success path: `this.currentService.failureCount = 0`. -/
def resetCurrentFailures (st : FState) : FState :=
  let upd : ServiceStat → ServiceStat := fun sv => { sv with failureCount := 0 }
  { st with services := updateAt st.services st.currentIndex upd }

/-- Result of one `super.send` call (the wrapped dispatch loop), supplied as
an oracle indexed by the global attempt number. -/
inductive Outcome where
  | ok (m : Message)
  | err (e : FailError)

/-- `lastError?.message || "Unknown error"` inside the aggregate error text. -/
def aggregateMessage (le : Option FailError) : String :=
  "All services exhausted. Last error: " ++
    (match le with
     | some e => if e.message = "" then "Unknown error" else e.message
     | none => "Unknown error")

/-- Observable result of `FailoverAgent.send`: the value returned or the
error thrown, the number of `super.send` calls made, and the final state. -/
inductive SendResult where
  | success (m : Message) (calls : Nat) (st : FState)
  | thrown (e : FailError) (calls : Nat) (st : FState)
  | exhausted (msg : String) (calls : Nat) (st : FState)

/-- The retry loop of `FailoverAgent.send`, structurally recursive on the
remaining budget `3 * N - attempts`; `k` is the attempt counter (also the
number of `super.send` calls made so far). -/
def failoverLoop (behave : Nat → Outcome) : Nat → Nat → FState → Option FailError → SendResult
  | 0, k, st, le => .exhausted (aggregateMessage le) k st
  | rem + 1, k, st, le =>
    match behave k with
    | .ok m => .success m (k + 1) (resetCurrentFailures st)
    | .err e =>
      let st1 := recordServiceFailure st k
      if isRateLimitError e then
        failoverLoop behave rem (k + 1) (rotateToNextService st1) (some e)
      else
        .thrown e (k + 1) st1

/-- `FailoverAgent.send`: budget `3 * services.length`, starting attempt 0. -/
def failoverSend (behave : Nat → Outcome) (st : FState) : SendResult :=
  failoverLoop behave (3 * st.services.length) 0 st none

def failureCountAt (st : FState) (i : Nat) : Option Nat :=
  (st.services[i]?).map ServiceStat.failureCount

def lastFailureAt (st : FState) (i : Nat) : Option (Option Nat) :=
  (st.services[i]?).map ServiceStat.lastFailure

/-! ## Streaming tag scanner (`LLMService.handleStreamingWithToolParsing`) -/

def openTagJoined : List Char := "<toolcall>".data
def openTagUnderscore : List Char := "<tool_call>".data
def closeTagJoined : List Char := "</toolcall>".data
def closeTagUnderscore : List Char := "</tool_call>".data

/-- Truthiness of `chunk.match` against `\s*<`: an empty whitespace run
followed by a literal `<` can be found anywhere, so the test is exactly
"contains a `<`". -/
def containsLt (s : List Char) : Bool := s.contains '<'

/-- The end-anchored alternatives of the buffering pattern, in lower case:
`<T?o?o?` at end (each letter independently optional, so also `<o` and
`<oo`), `<Tool_?` at end, and `<Tool_?Ca?l?l?` at end. -/
def tagPrefixExact : List (List Char) :=
  ["<", "<t", "<o", "<to", "<oo", "<too", "<tool", "<tool_",
   "<toolc", "<toolca", "<toolcal", "<toolcall", "<toolcl", "<toolcll",
   "<tool_c", "<tool_ca", "<tool_cal", "<tool_call", "<tool_cl", "<tool_cll"].map
    String.data

/-- The unanchored alternative `<Tool_?Call>` at the head of `t`. -/
def startsOpenTag (t : List Char) : Bool :=
  openTagJoined.isPrefixOf t || openTagUnderscore.isPrefixOf t

/-- The buffering test on `toolBuffer`: the case-insensitive pattern of
leading whitespace followed by one of the alternatives (the whitespace run
must be maximal, since every alternative begins with the non-whitespace
`<`). -/
def prefixGrammar (buf : List Char) : Bool :=
  let t := (lowList buf).dropWhile jsWhitespace
  tagPrefixExact.any (fun p => t = p) || startsOpenTag t

def containsCloseTag (s : List Char) : Bool :=
  containsSub closeTagJoined s || containsSub closeTagUnderscore s

/-- Truthiness of the dotall search for `<Tool_?Call>` followed (anywhere
later) by `</Tool_?Call>`, on a lower-cased buffer: scan every start
position for an opening tag with a closing tag after it. -/
def hasCompletePairLow : List Char → Bool
  | [] => false
  | s@(_ :: rest) =>
    (openTagJoined.isPrefixOf s && containsCloseTag (s.drop 10)) ||
    (openTagUnderscore.isPrefixOf s && containsCloseTag (s.drop 11)) ||
    hasCompletePairLow rest

def hasCompletePair (buf : List Char) : Bool := hasCompletePairLow (lowList buf)

/-- The end-of-stream test for `<Tool_?Call>` appearing anywhere in the
buffer. -/
def hasOpenTag (buf : List Char) : Bool :=
  containsSub openTagJoined (lowList buf) || containsSub openTagUnderscore (lowList buf)

/-- Scanner state: the `toolBuffer` and the write-only `fullContent`
accumulator of the source. -/
structure ScanState where
  toolBuffer : List Char := []
  fullContent : List Char := []

/-- The `chunk` event handler: returns the new state and the content
fragments emitted for this chunk. -/
def scanChunk (st : ScanState) (chunk : List Char) : ScanState × List (List Char) :=
  let full := st.fullContent ++ chunk
  if !st.toolBuffer.isEmpty || containsLt chunk then
    let buf := st.toolBuffer ++ chunk
    if !prefixGrammar buf then
      ({ toolBuffer := [], fullContent := full }, [buf])
    else if hasCompletePair buf then
      ({ toolBuffer := [], fullContent := full }, [])
    else
      ({ toolBuffer := buf, fullContent := full }, [])
  else
    ({ toolBuffer := st.toolBuffer, fullContent := full }, [chunk])

def scanChunks : ScanState → List (List Char) → ScanState × List (List Char)
  | st, [] => (st, [])
  | st, c :: cs =>
    let r1 := scanChunk st c
    let r2 := scanChunks r1.1 cs
    (r2.1, r1.2 ++ r2.2)

/-- The final flush of the `complete` handler (its remaining actions emit
`toolCall`/`complete` events, not content fragments). -/
def scanFlush (st : ScanState) : List (List Char) :=
  if !st.toolBuffer.isEmpty && !hasOpenTag st.toolBuffer then [st.toolBuffer] else []

/-- Concatenation of all content fragments emitted for a chunked stream. -/
def emittedContent (chunks : List (List Char)) : List Char :=
  let r := scanChunks {} chunks
  (r.2 ++ scanFlush r.1).flatten

/-- A segment of a response text: a prose block or one well-formed
`<ToolCall>...</ToolCall>` span. -/
inductive Seg where
  | prose (p : List Char)
  | span (payload : List Char)

def spanText (payload : List Char) : List Char :=
  "<ToolCall>".data ++ payload ++ "</ToolCall>".data

def segText : Seg → List Char
  | .prose p => p
  | .span p => spanText p

/-- The original text with the tool-call spans removed. -/
def proseText : List Seg → List Char
  | [] => []
  | .prose p :: rest => p ++ proseText rest
  | .span _ :: rest => proseText rest

/-- A chunking of a segment list in which every span starts at a fragment
boundary and ends at a fragment end; prose and span interiors may be split
anywhere, all fragments are non-empty, and neither prose nor span payloads
contain a literal `<`. -/
inductive Fragmentation : List Seg → List (List Char) → Prop where
  | nil : Fragmentation [] []
  | prose {p : List Char} {cs : List (List Char)} {segs : List Seg}
      {fs : List (List Char)}
      (hp : '<' ∉ p) (hcs : cs.flatten = p) (hne : ∀ c ∈ cs, c ≠ [])
      (h : Fragmentation segs fs) : Fragmentation (.prose p :: segs) (cs ++ fs)
  | span {p : List Char} {cs : List (List Char)} {segs : List Seg}
      {fs : List (List Char)}
      (hp : '<' ∉ p) (hcs : cs.flatten = spanText p) (hne : ∀ c ∈ cs, c ≠ [])
      (h : Fragmentation segs fs) : Fragmentation (.span p :: segs) (cs ++ fs)

/-! ## Tool dispatch loop (`Agent.ts`: `send` / `processReply`) -/

/-- A registered tool.  `Tool.call` never rejects (the `Tool` class catches
internally and resolves with the error message), so execution is modelled as
a total function from arguments to the result string; a rejection caught by
the dispatch try-block would likewise only produce a result string. -/
structure AgentTool where
  name : String
  description : String := ""
  call : Json → String

/-- `this.tools.find((t) => t.name === toolCall.name)`: strict equality of
the call's (dynamically typed) name with the tool's name string. -/
def nameMatches (tc : ToolCall) (t : AgentTool) : Bool :=
  match tc.name with
  | .str s => s == t.name
  | _ => false

/-- Resolution of one tool call inside `processReply`: run the tool and set
`result`, or set the not-found error string. -/
def resolveCall (tools : List AgentTool) (tc : ToolCall) : ToolCall :=
  match tools.find? (fun t => nameMatches tc t) with
  | some t => { tc with result := some (t.call tc.args) }
  | none =>
    { tc with result := some ("Error: Tool \"" ++ jsShow (some tc.name) ++ "\" not found") }

/-- Conversation state owned by one agent: the append-only history. -/
structure AgState where
  history : List Message := []

/-- `processMessage`: an incoming message is pushed to the history (and to
the outgoing context). -/
def pushedHistory (st : AgState) (msgOpt : Option Message) : AgState :=
  { history := st.history ++ (match msgOpt with
      | some m => [m]
      | none => []) }

/-- History after `processReply` has pushed the assistant reply and resolved
its tool calls: the pushed reply aliases the mutated call objects, so it
carries the resolved calls, followed by one tool-result message per call in
call-array order (the source pushes each message right after resolving its
call; the final history value is the same). -/
def afterDispatchState (st : AgState) (msgOpt : Option Message) (reply : Message)
    (resolved : List ToolCall) : AgState :=
  { history := (pushedHistory st msgOpt).history ++
      [{ reply with toolCalls := some resolved }] ++ resolved.map ToolCall.message }

/-- The merged message returned by `processReply` after the recursive hop:
contents joined by a newline, `toolCalls` the concatenation of the (now
resolved) original calls with the recursive reply's calls. -/
def mergeReplies (reply newReply : Message) (resolved : List ToolCall) : Message :=
  { role := .assistant
    content := reply.content ++ "\n" ++ newReply.content
    toolCalls := some (resolved ++ (match newReply.toolCalls with
      | some l => l
      | none => []))
    toolCallId := none }

/-- `Agent.send` with `processReply` inlined.  The backend is an oracle
giving the reply of the `n`-th LLM call of this conversation turn; the
unbounded recursion of the source is reached at some `fuel` for every
terminating execution (`none` = fuel exhausted).  Streaming event
subscriptions emit no history or reply data and are omitted. -/
def sendAgent (oracle : Nat → Message) (tools : List AgentTool) :
    Nat → Nat → AgState → Option Message → Option (Message × AgState)
  | 0, _, _, _ => none
  | fuel + 1, callIdx, st, msgOpt =>
    let st1 := pushedHistory st msgOpt
    let reply := oracle callIdx
    match reply.toolCalls with
    | some tcs =>
      if tcs.isEmpty then
        some (reply, { history := st1.history ++ [reply] })
      else
        let resolved := tcs.map (resolveCall tools)
        let st2 := afterDispatchState st msgOpt reply resolved
        match sendAgent oracle tools fuel (callIdx + 1) st2 none with
        | none => none
        | some (newReply, st3) => some (mergeReplies reply newReply resolved, st3)
    | none => some (reply, { history := st1.history ++ [reply] })

/-! ## JSON parsing (`JSON.parse`) -/

/-- JSON-grammar whitespace. -/
def jsonWs (c : Char) : Bool := c = ' ' ∨ c = '\t' ∨ c = '\n' ∨ c = '\r'

def hexVal (c : Char) : Option Nat :=
  if 48 ≤ c.toNat ∧ c.toNat ≤ 57 then some (c.toNat - 48)
  else if 97 ≤ c.toNat ∧ c.toNat ≤ 102 then some (c.toNat - 87)
  else if 65 ≤ c.toNat ∧ c.toNat ≤ 70 then some (c.toNat - 55)
  else none

/-- String body after the opening quote: unescape up to the closing quote. -/
def parseStringBody : List Char → Option (List Char × List Char)
  | [] => none
  | '"' :: rest => some ([], rest)
  | '\\' :: rest =>
    match rest with
    | [] => none
    | e :: rest2 =>
      let simpleEsc : Option Char :=
        if e = '"' then some '"'
        else if e = '\\' then some '\\'
        else if e = '/' then some '/'
        else if e = 'b' then some '\x08'
        else if e = 'f' then some '\x0c'
        else if e = 'n' then some '\n'
        else if e = 'r' then some '\r'
        else if e = 't' then some '\t'
        else none
      match simpleEsc with
      | some c => (parseStringBody rest2).map (fun pr => (c :: pr.1, pr.2))
      | none =>
        if e = 'u' then
          match rest2 with
          | h1 :: h2 :: h3 :: h4 :: rest3 =>
            match hexVal h1, hexVal h2, hexVal h3, hexVal h4 with
            | some v1, some v2, some v3, some v4 =>
              (parseStringBody rest3).map (fun pr =>
                (Char.ofNat (((v1 * 16 + v2) * 16 + v3) * 16 + v4) :: pr.1, pr.2))
            | _, _, _, _ => none
          | _ => none
        else none
  | c :: rest =>
    if c.toNat < 32 then none
    else (parseStringBody rest).map (fun pr => (c :: pr.1, pr.2))

def isDigitChar (c : Char) : Bool := 48 ≤ c.toNat ∧ c.toNat ≤ 57

/-- Number lexeme: `-? (0 | [1-9][0-9]*) frac? exp?`, kept verbatim. -/
def parseNumberLexeme (s : List Char) : Option (List Char × List Char) :=
  let (sgn, s1) : List Char × List Char :=
    match s with
    | '-' :: r => (['-'], r)
    | _ => ([], s)
  let intPart : Option (List Char × List Char) :=
    match s1 with
    | '0' :: r =>
      match r with
      | c :: _ => if isDigitChar c then none else some (['0'], r)
      | [] => some (['0'], [])
    | c :: _ =>
      if isDigitChar c then
        let d := s1.takeWhile isDigitChar
        some (d, s1.drop d.length)
      else none
    | [] => none
  match intPart with
  | none => none
  | some (ip, s2) =>
    let (fp, s3) : List Char × List Char :=
      match s2 with
      | '.' :: r =>
        let d := r.takeWhile isDigitChar
        if d.isEmpty then ([], s2) else ('.' :: d, r.drop d.length)
      | _ => ([], s2)
    let fracOk : Bool :=
      match s2 with
      | '.' :: r => !(r.takeWhile isDigitChar).isEmpty
      | _ => true
    if !fracOk then none
    else
      let expRes : Option (List Char × List Char) :=
        match s3 with
        | e :: r =>
          if e = 'e' ∨ e = 'E' then
            let (sg, r2) : List Char × List Char :=
              match r with
              | '+' :: rr => (['+'], rr)
              | '-' :: rr => (['-'], rr)
              | _ => ([], r)
            let d := r2.takeWhile isDigitChar
            if d.isEmpty then none else some (e :: (sg ++ d), r2.drop d.length)
          else some ([], s3)
        | [] => some ([], s3)
      match expRes with
      | none => none
      | some (ep, s4) => some (sgn ++ ip ++ fp ++ ep, s4)

mutual

/-- Recursive-descent JSON value parser; fuel bounds the nesting. -/
def parseVal : Nat → List Char → Option (Json × List Char)
  | 0, _ => none
  | fuel + 1, s0 =>
    let s := s0.dropWhile jsonWs
    match s with
    | [] => none
    | '{' :: rest =>
      let r1 := rest.dropWhile jsonWs
      (match r1 with
       | '}' :: r2 => some (.obj [], r2)
       | _ => (parseMembers fuel r1).map (fun pr => (.obj pr.1, pr.2)))
    | '[' :: rest =>
      let r1 := rest.dropWhile jsonWs
      (match r1 with
       | ']' :: r2 => some (.arr [], r2)
       | _ => (parseElems fuel r1).map (fun pr => (.arr pr.1, pr.2)))
    | '"' :: rest =>
      (parseStringBody rest).map (fun pr => (.str ⟨pr.1⟩, pr.2))
    | 't' :: rest =>
      if "rue".data.isPrefixOf rest then some (.bool true, rest.drop 3) else none
    | 'f' :: rest =>
      if "alse".data.isPrefixOf rest then some (.bool false, rest.drop 4) else none
    | 'n' :: rest =>
      if "ull".data.isPrefixOf rest then some (.null, rest.drop 3) else none
    | _ =>
      (parseNumberLexeme s).map (fun pr => (.num ⟨pr.1⟩, pr.2))

/-- Array elements, at least one, separated by commas. -/
def parseElems : Nat → List Char → Option (List Json × List Char)
  | 0, _ => none
  | fuel + 1, s =>
    match parseVal fuel s with
    | none => none
    | some (v, s1) =>
      let s2 := s1.dropWhile jsonWs
      match s2 with
      | ',' :: s3 => (parseElems fuel s3).map (fun pr => (v :: pr.1, pr.2))
      | ']' :: s3 => some ([v], s3)
      | _ => none

/-- Object members, at least one, separated by commas. -/
def parseMembers : Nat → List Char → Option (List (String × Json) × List Char)
  | 0, _ => none
  | fuel + 1, s =>
    match s with
    | '"' :: rest =>
      (match parseStringBody rest with
       | none => none
       | some (key, s1) =>
         let s2 := s1.dropWhile jsonWs
         match s2 with
         | ':' :: s3 =>
           (match parseVal fuel s3 with
            | none => none
            | some (v, s4) =>
              let s5 := s4.dropWhile jsonWs
              match s5 with
              | ',' :: s6 =>
                (parseMembers fuel (s6.dropWhile jsonWs)).map
                  (fun pr => ((⟨key⟩, v) :: pr.1, pr.2))
              | '}' :: s6 => some ([(⟨key⟩, v)], s6)
              | _ => none)
         | _ => none)
    | _ => none

end

/-- `JSON.parse`: a complete value with only trailing whitespace. -/
def Json.parse (str : String) : Option Json :=
  match parseVal (2 * str.data.length + 2) str.data with
  | some (v, rest) => if (rest.dropWhile jsonWs).isEmpty then some v else none
  | none => none

/-! ## Tool-call extraction (`LLMService.parseToolCallsFromText`) -/

/-- Case-insensitive literal match at the head. -/
def startsCI (pat s : List Char) : Bool := pat.isPrefixOf (lowList s)

/-- `<Tool_?Call>` at the head (the optional `_?` is greedy; the variants are
mutually exclusive at one position). -/
def openTagAt (s : List Char) : Option (List Char) :=
  if startsCI openTagUnderscore s then some (s.drop 11)
  else if startsCI openTagJoined s then some (s.drop 10)
  else none

/-- `\s*<\/Tool_?Call>` at the head (the whitespace run is maximal because
the closing tag starts with the non-whitespace `<`). -/
def closeTagAfterWs (s : List Char) : Option (List Char) :=
  let s1 := s.dropWhile jsWhitespace
  if startsCI closeTagUnderscore s1 then some (s1.drop 12)
  else if startsCI closeTagJoined s1 then some (s1.drop 11)
  else none

/-- The lazy `(\{.*?})` group: extend to the next `}` whose continuation
matches `\s*<\/Tool_?Call>`, as the backtracking engine does. -/
def jsonGroupLazy (acc : List Char) : List Char → Option (List Char × List Char)
  | [] => none
  | c :: rest =>
    if c = '}' then
      match closeTagAfterWs rest with
      | some rest2 => some (acc ++ ['}'], rest2)
      | none => jsonGroupLazy (acc ++ ['}']) rest
    else jsonGroupLazy (acc ++ [c]) rest

/-- One attempt of `/<Tool_?Call>\s*(\{.*?})\s*<\/Tool_?Call>/is` at the
current position: opening tag, whitespace, then the lazy braced group. -/
def jsonMatchAt (s : List Char) : Option (List Char × List Char) :=
  match openTagAt s with
  | none => none
  | some s1 =>
    match s1.dropWhile jsWhitespace with
    | '{' :: s3 => jsonGroupLazy ['{'] s3
    | _ => none

/-- `matchAll` scan: leftmost matches, resuming after each match end; on
failure the start position advances by one.  The fuel (amply the text
length) bounds the positions visited. -/
def jsonScan : Nat → List Char → List (List Char)
  | 0, _ => []
  | _, [] => []
  | fuel + 1, s@(_ :: rest) =>
    match jsonMatchAt s with
    | some (g, rest2) => g :: jsonScan fuel rest2
    | none => jsonScan fuel rest

def jsonGroups (s : List Char) : List (List Char) := jsonScan (s.length + 1) s

/-! The XML-dialect pattern
`/<Tool_?Call>\s*(?:<Tool_?Name>)?(.+?)(?:<\/Tool_?Name>)?\s*(<.+>.+<\/.*>)\s*<\/Tool_?Call>/is`
is compiled phase by phase with the engine's backtracking order: greedy
pieces try longest first, lazy pieces shortest first, optional groups try
the present branch first. -/

/-- `.*>` then `\s*<\/Tool_?Call>`; the counter is the candidate length of
the star, tried longest first.  Returns (chars consumed inside the group,
rest after the whole match). -/
def xmlStarGtClose (s : List Char) : Nat → Option (Nat × List Char)
  | 0 =>
    (match s with
     | '>' :: r => (closeTagAfterWs r).map (fun r2 => (1, r2))
     | _ => none)
  | k + 1 =>
    (match s.drop (k + 1) with
     | '>' :: r => (closeTagAfterWs r).map (fun r2 => (k + 2, r2))
     | _ => none) <|>
    xmlStarGtClose s k

/-- `.+<\/` then the star-close tail; greedy. -/
def xmlPlusLtSlash (s : List Char) : Nat → Option (Nat × List Char)
  | 0 => none
  | k + 1 =>
    (match s.drop (k + 1) with
     | '<' :: '/' :: r =>
       (xmlStarGtClose r r.length).map (fun pr => (k + 3 + pr.1, pr.2))
     | _ => none) <|>
    xmlPlusLtSlash s k

/-- `.+>` then the rest of the group; greedy. -/
def xmlPlusGt (s : List Char) : Nat → Option (Nat × List Char)
  | 0 => none
  | k + 1 =>
    (match s.drop (k + 1) with
     | '>' :: r => (xmlPlusLtSlash r r.length).map (fun pr => (k + 2 + pr.1, pr.2))
     | _ => none) <|>
    xmlPlusGt s k

/-- Group 2 `(<.+>.+<\/.*>)` followed by `\s*<\/Tool_?Call>`: returns the
captured group and the rest after the match end. -/
def xmlGroup2 (s : List Char) : Option (List Char × List Char) :=
  match s with
  | '<' :: r => (xmlPlusGt r r.length).map (fun pr => (s.take (1 + pr.1), pr.2))
  | _ => none

def openNameJoined : List Char := "<toolname>".data
def openNameUnderscore : List Char := "<tool_name>".data
def closeNameJoined : List Char := "</toolname>".data
def closeNameUnderscore : List Char := "</tool_name>".data

/-- After group 1: optional `<\/Tool_?Name>` (present first), `\s*` (maximal,
since group 2 starts with `<`), then group 2. -/
def xmlAfterG1 (s : List Char) : Option (List Char × List Char) :=
  (if startsCI closeNameUnderscore s then xmlGroup2 ((s.drop 12).dropWhile jsWhitespace)
   else none) <|>
  (if startsCI closeNameJoined s then xmlGroup2 ((s.drop 11).dropWhile jsWhitespace)
   else none) <|>
  xmlGroup2 (s.dropWhile jsWhitespace)

/-- Group 1 `(.+?)`: lazy, length tried from 1 upward (the counter is the
remaining budget). -/
def xmlG1 (s : List Char) : Nat → Nat → Option (List Char × List Char × List Char)
  | _, 0 => none
  | L, b + 1 =>
    (match xmlAfterG1 (s.drop L) with
     | some pr => if L = 0 then none else some (s.take L, pr.1, pr.2)
     | none => none) <|>
    xmlG1 s (L + 1) b

/-- After the leading whitespace: optional `<Tool_?Name>` (present first),
then group 1. -/
def xmlAfterWs (s : List Char) : Option (List Char × List Char × List Char) :=
  (if startsCI openNameUnderscore s then xmlG1 (s.drop 11) 1 (s.drop 11).length
   else none) <|>
  (if startsCI openNameJoined s then xmlG1 (s.drop 10) 1 (s.drop 10).length
   else none) <|>
  xmlG1 s 1 s.length

/-- Leading `\s*` after the opening tag: greedy with backtracking, because
group 1 may itself consume whitespace. -/
def xmlP1 (s : List Char) : Nat → Option (List Char × List Char × List Char)
  | 0 => xmlAfterWs s
  | k + 1 =>
    (if (s.take (k + 1)).all jsWhitespace then xmlAfterWs (s.drop (k + 1)) else none) <|>
    xmlP1 s k

def xmlMatchAt (s : List Char) : Option ((List Char × List Char) × List Char) :=
  match openTagAt s with
  | none => none
  | some s1 =>
    match xmlP1 s1 (s1.takeWhile jsWhitespace).length with
    | some (g1, g2, rest) => some ((g1, g2), rest)
    | none => none

def xmlScan : Nat → List Char → List (List Char × List Char)
  | 0, _ => []
  | _, [] => []
  | fuel + 1, s@(_ :: rest) =>
    match xmlMatchAt s with
    | some (gs, rest2) => gs :: xmlScan fuel rest2
    | none => xmlScan fuel rest

def xmlMatches (s : List Char) : List (List Char × List Char) := xmlScan (s.length + 1) s

/-! The parameter pattern
`/<(?:parameter name="|.*key>)(.+)(?:<\/.*key>\s*<.*value>|">)(.+)<\/(?:parameter|.*value)>/gis`
applied inside an XML span's parameter block, compiled the same way. -/

/-- Trailing `<\/(?:parameter|.*value)>`. -/
def paramEndStar (r : List Char) : Nat → Option (List Char)
  | 0 => if startsCI "value>".data r then some (r.drop 6) else none
  | k + 1 =>
    (if startsCI "value>".data (r.drop (k + 1)) then some (r.drop (k + 7)) else none) <|>
    paramEndStar r k

def paramEnd (s : List Char) : Option (List Char) :=
  match s with
  | '<' :: '/' :: r =>
    (if startsCI "parameter>".data r then some (r.drop 10) else none) <|>
    paramEndStar r r.length
  | _ => none

/-- Group 2 `(.+)`: greedy, then the trailing close. -/
def paramG2 (s : List Char) : Nat → Option (List Char × List Char)
  | 0 => none
  | k + 1 =>
    (match paramEnd (s.drop (k + 1)) with
     | some rest => some (s.take (k + 1), rest)
     | none => none) <|>
    paramG2 s k

/-- Middle alternative `<\/.*key>\s*<.*value>`: the third greedy star. -/
def paramMidA3 (r : List Char) : Nat → Option (List Char × List Char)
  | 0 => if startsCI "value>".data r then paramG2 (r.drop 6) (r.drop 6).length else none
  | k + 1 =>
    (if startsCI "value>".data (r.drop (k + 1)) then
      paramG2 (r.drop (k + 7)) (r.drop (k + 7)).length
     else none) <|>
    paramMidA3 r k

def paramMidA2 (s : List Char) : Option (List Char × List Char) :=
  match s.dropWhile jsWhitespace with
  | '<' :: r => paramMidA3 r r.length
  | _ => none

def paramMidAStar (r : List Char) : Nat → Option (List Char × List Char)
  | 0 => if startsCI "key>".data r then paramMidA2 (r.drop 4) else none
  | k + 1 =>
    (if startsCI "key>".data (r.drop (k + 1)) then paramMidA2 (r.drop (k + 5))
     else none) <|>
    paramMidAStar r k

def paramMidA (s : List Char) : Option (List Char × List Char) :=
  match s with
  | '<' :: '/' :: r => paramMidAStar r r.length
  | _ => none

def paramMidB (s : List Char) : Option (List Char × List Char) :=
  match s with
  | '"' :: '>' :: r => paramG2 r r.length
  | _ => none

def paramMid (s : List Char) : Option (List Char × List Char) :=
  paramMidA s <|> paramMidB s

/-- Group 1 `(.+)`: greedy, then the middle alternation. -/
def paramG1 (s : List Char) : Nat → Option (List Char × List Char × List Char)
  | 0 => none
  | k + 1 =>
    (match paramMid (s.drop (k + 1)) with
     | some pr => some (s.take (k + 1), pr.1, pr.2)
     | none => none) <|>
    paramG1 s k

def paramHeadStar (r : List Char) : Nat → Option (List Char × List Char × List Char)
  | 0 => if startsCI "key>".data r then paramG1 (r.drop 4) (r.drop 4).length else none
  | k + 1 =>
    (if startsCI "key>".data (r.drop (k + 1)) then
      paramG1 (r.drop (k + 5)) (r.drop (k + 5)).length
     else none) <|>
    paramHeadStar r k

def paramHead (s : List Char) : Option (List Char × List Char × List Char) :=
  match s with
  | '<' :: r =>
    (if startsCI "parameter name=\"".data r then
      paramG1 (r.drop 16) (r.drop 16).length
     else none) <|>
    paramHeadStar r r.length
  | _ => none

def paramScan : Nat → List Char → List (List Char × List Char)
  | 0, _ => []
  | _, [] => []
  | fuel + 1, s@(_ :: rest) =>
    match paramHead s with
    | some (g1, g2, rest2) => (g1, g2) :: paramScan fuel rest2
    | none => paramScan fuel rest

def paramMatches (s : List Char) : List (List Char × List Char) := paramScan (s.length + 1) s

/-- `params[key] = value`: object assignment keeps the original position of
an existing key. -/
def assocSet : List (String × Json) → String → Json → List (String × Json)
  | [], k, v => [(k, v)]
  | (k2, v2) :: rest, k, v =>
    if k2 = k then (k, v) :: rest else (k2, v2) :: assocSet rest k v

/-- The synthesized id `name-index-timestamp`. -/
def synthId (nm : String) (i t : Nat) : String :=
  nm ++ "-" ++ Nat.repr i ++ "-" ++ Nat.repr t

/-- One JSON-dialect array entry.  `Date.now()` is the clock oracle at the
running read counter (consumed only when an id is synthesized, before the
argument string is re-parsed); a `none` first component models the throw of
the inner `JSON.parse`, which aborts the span's loop after the clock was
already read. -/
def jsonEntryToCall (clock : Nat → Nat) (ctr i : Nat) (tc : Json) :
    Option ToolCall × Nat :=
  let nameV := jsCoalesce (getField tc "name") (getField tc "tool")
  let argsV := jsCoalesce (getField tc "parameters")
    (jsCoalesce (getField tc "args") (getField tc "arguments"))
  let idPair : Json × Nat :=
    match getField tc "id" with
    | none => (.str (synthId (jsShow nameV) i (clock ctr)), ctr + 1)
    | some .null => (.str (synthId (jsShow nameV) i (clock ctr)), ctr + 1)
    | some v => (v, ctr)
  let nameFinal : Json :=
    match nameV with
    | none => .str ""
    | some v => v
  match argsV with
  | some (.str s) =>
    (match Json.parse s with
     | none => (none, idPair.2)
     | some a => (some { id := idPair.1, name := nameFinal, args := a }, idPair.2))
  | some v => (some { id := idPair.1, name := nameFinal, args := v }, idPair.2)
  | none => (some { id := idPair.1, name := nameFinal, args := .obj [] }, idPair.2)

/-- The `for (const [i, tc] of toolCallsArray.entries())` loop, pushing into
the shared accumulator; a throw aborts the loop keeping the prefix. -/
def pushJsonEntries (clock : Nat → Nat) :
    List ToolCall → Nat → Nat → List Json → List ToolCall × Nat
  | acc, ctr, _, [] => (acc, ctr)
  | acc, ctr, i, tc :: rest =>
    match jsonEntryToCall clock ctr i tc with
    | (some c, ctr2) => pushJsonEntries clock (acc ++ [c]) ctr2 (i + 1) rest
    | (none, ctr2) => (acc, ctr2)

def asArray : Json → List Json
  | .arr l => l
  | v => [v]

/-- One JSON-dialect span: parse the captured group, else skip (the catch
logs and continues). -/
def processJsonSpan (clock : Nat → Nat) (acc : List ToolCall × Nat) (g : List Char) :
    List ToolCall × Nat :=
  match Json.parse ⟨g⟩ with
  | none => acc
  | some j => pushJsonEntries clock acc.1 acc.2 0 (asArray j)

/-- One XML-dialect span: name from group 1, parameters from the parameter
matches of group 2, id `name-timestamp`. -/
def xmlSpanCall (clock : Nat → Nat) (ctr : Nat) (g1 g2 : List Char) : ToolCall × Nat :=
  let name : String := ⟨g1⟩
  let params := (paramMatches g2).foldl
    (fun ps pr => assocSet ps ⟨pr.1⟩ (.str ⟨pr.2⟩)) []
  ({ id := .str (name ++ "-" ++ Nat.repr (clock ctr)), name := .str name,
     args := .obj params }, ctr + 1)

/-- `LLMService.parseToolCallsFromText`: all JSON-dialect matches, then all
XML-dialect matches, accumulated into one list. -/
def parseToolCallsFromText (clock : Nat → Nat) (text : String) : List ToolCall :=
  let jres := (jsonGroups text.data).foldl (fun acc g => processJsonSpan clock acc g)
    ([], 0)
  let xres := (xmlMatches text.data).foldl
    (fun acc pr =>
      let c := xmlSpanCall clock acc.2 pr.1 pr.2
      (acc.1 ++ [c.1], c.2)) jres
  xres.1

/-- Per-span output lists of the JSON dialect, threading the clock counter. -/
def jsonSpanBatches (clock : Nat → Nat) : Nat → List (List Char) → List (List ToolCall) × Nat
  | ctr, [] => ([], ctr)
  | ctr, g :: gs =>
    let r := processJsonSpan clock ([], ctr) g
    let rest := jsonSpanBatches clock r.2 gs
    (r.1 :: rest.1, rest.2)

/-- Per-span output lists of the XML dialect. -/
def xmlSpanBatches (clock : Nat → Nat) :
    Nat → List (List Char × List Char) → List (List ToolCall) × Nat
  | ctr, [] => ([], ctr)
  | ctr, pr :: prs =>
    let c := xmlSpanCall clock ctr pr.1 pr.2
    let rest := xmlSpanBatches clock c.2 prs
    ([c.1] :: rest.1, rest.2)

/-! ## Demonstration fixtures for the dispatch witnesses -/

def demoTool : AgentTool := { name := "echo", call := fun _ => "ok" }

def demoTools : List AgentTool := [demoTool]

def demoCall1 : ToolCall := { id := .str "id1", name := .str "echo", args := .obj [] }

def demoCall2 : ToolCall := { id := .str "id2", name := .str "mystery", args := .obj [] }

def demoReply0 : Message :=
  { role := .assistant, content := "a", toolCalls := some [demoCall1, demoCall2] }

def demoReply1 : Message := { role := .assistant, content := "b" }

def demoOracle : Nat → Message := fun n => if n = 0 then demoReply0 else demoReply1

/-! ## Helper lemmas -/

theorem containsSub_cons_of_not {pat : List Char} {a : Char} {s : List Char}
    (h : pat.isPrefixOf (a :: s) = false) :
    containsSub pat (a :: s) = containsSub pat s := by
  simp [containsSub, h]

theorem containsSub_of_cons {pat : List Char} {a : Char} {s : List Char}
    (h : containsSub pat s = true) : containsSub pat (a :: s) = true := by
  simp [containsSub, h]

theorem containsSub_of_drop {pat : List Char} {s : List Char} {n : Nat}
    (h : containsSub pat (s.drop n) = true) : containsSub pat s = true := by
  induction s generalizing n with
  | nil => cases n <;> simpa using h
  | cons a s ih =>
    cases n with
    | zero => simpa using h
    | succ n => exact containsSub_of_cons (ih (n := n) (by simpa using h))

/-- A pattern longer than the text never occurs in it. -/
theorem containsSub_eq_false_of_length {pat s : List Char}
    (h : s.length < pat.length) : containsSub pat s = false := by
  induction s with
  | nil =>
    cases pat with
    | nil => simp at h
    | cons p ps => simp [containsSub, List.isEmpty]
  | cons a s ih =>
    have hps : pat.isPrefixOf (a :: s) = false := by
      cases hpf : pat.isPrefixOf (a :: s) with
      | false => rfl
      | true =>
        have hle := (List.isPrefixOf_iff_prefix.mp hpf).length_le
        simp only [List.length_cons] at hle h
        omega
    rw [containsSub_cons_of_not hps]
    apply ih
    simp only [List.length_cons] at h
    omega

/-- A pattern beginning with a character absent from `u` cannot start inside
`u`, so searching `u ++ z` is searching `z`. -/
theorem containsSub_append_of_head_notMem {c : Char} {pat u z : List Char}
    (hu : c ∉ u) : containsSub (c :: pat) (u ++ z) = containsSub (c :: pat) z := by
  induction u with
  | nil => rfl
  | cons a u ih =>
    have hac : a ≠ c := fun h => hu (h ▸ List.mem_cons_self a u)
    have hpf : (c :: pat).isPrefixOf (a :: (u ++ z)) = false := by
      simp [List.isPrefixOf]
      intro h
      exact absurd h.symm hac
    rw [List.cons_append, containsSub_cons_of_not hpf]
    exact ih (fun h => hu (List.mem_cons_of_mem a h))

/-- The pattern occurs in any text ending with it. -/
theorem containsSub_append_self {pat : List Char} (hne : pat ≠ []) (u : List Char) :
    containsSub pat (u ++ pat) = true := by
  induction u with
  | nil =>
    cases pat with
    | nil => exact absurd rfl hne
    | cons p ps =>
      have : (p :: ps).isPrefixOf (p :: ps) = true :=
        List.isPrefixOf_iff_prefix.mpr (List.prefix_refl _)
      simp [containsSub, this]
  | cons a u ih => exact containsSub_of_cons ih

theorem isPrefixOf_append_self (l t : List Char) : l.isPrefixOf (l ++ t) = true :=
  List.isPrefixOf_iff_prefix.mpr ⟨t, rfl⟩

/-- Splitting a prefix of a concatenation. -/
theorem prefix_append_cases {α : Type} {r a b : List α} (h : r <+: a ++ b) :
    r <+: a ∨ ∃ t, r = a ++ t ∧ t <+: b := by
  rcases le_or_lt r.length a.length with hle | hlt
  · left
    rw [List.prefix_iff_eq_take] at h ⊢
    rw [List.take_append_eq_append_take, Nat.sub_eq_zero_of_le hle] at h
    simpa using h
  · right
    rw [List.prefix_iff_eq_take] at h
    rw [List.take_append_eq_append_take,
      List.take_of_length_le (Nat.le_of_lt hlt)] at h
    exact ⟨b.take (r.length - a.length), h, List.take_prefix _ _⟩

/-- One loop iteration, success case. -/
theorem failoverLoop_step_ok (behave : Nat → Outcome) (rem k : Nat) (st : FState)
    (le : Option FailError) (m : Message) (hb : behave k = .ok m) :
    failoverLoop behave (rem + 1) k st le = .success m (k + 1) (resetCurrentFailures st) := by
  simp only [failoverLoop, hb]

/-- One loop iteration, rate-limit-classified failure: record, rotate, retry. -/
theorem failoverLoop_step_rl (behave : Nat → Outcome) (rem k : Nat) (st : FState)
    (le : Option FailError) (e : FailError) (hb : behave k = .err e)
    (hrl : isRateLimitError e = true) :
    failoverLoop behave (rem + 1) k st le =
      failoverLoop behave rem (k + 1) (rotateToNextService (recordServiceFailure st k))
        (some e) := by
  simp only [failoverLoop, hb, hrl, if_true]

/-- One loop iteration, non-rate-limit failure: record, then throw. -/
theorem failoverLoop_step_throw (behave : Nat → Outcome) (rem k : Nat) (st : FState)
    (le : Option FailError) (e : FailError) (hb : behave k = .err e)
    (hrl : isRateLimitError e = false) :
    failoverLoop behave (rem + 1) k st le = .thrown e (k + 1) (recordServiceFailure st k) := by
  simp only [failoverLoop, hb, hrl]
  rfl

theorem updateAt_length {α : Type} (l : List α) (i : Nat) (f : α → α) :
    (updateAt l i f).length = l.length := by
  induction l generalizing i with
  | nil => simp [updateAt]
  | cons a as ih =>
    cases i with
    | zero => simp [updateAt]
    | succ n => simpa [updateAt] using ih n

theorem updateAt_getElem_self {α : Type} (l : List α) (i : Nat) (f : α → α) :
    (updateAt l i f)[i]? = (l[i]?).map f := by
  induction l generalizing i with
  | nil => simp [updateAt]
  | cons a as ih =>
    cases i with
    | zero => simp [updateAt]
    | succ n => simpa [updateAt] using ih n

/-- All-rate-limited runs burn the whole budget and end exhausted, with the
last observed error in the aggregate message. -/
theorem failoverLoop_all_rate_limited (behave : Nat → Outcome) (es : Nat → FailError) :
    ∀ rem k st le, rem ≠ 0 →
      (∀ j, j < rem → behave (k + j) = .err (es (k + j))) →
      (∀ j, j < rem → isRateLimitError (es (k + j)) = true) →
      ∃ st2, failoverLoop behave rem k st le =
        .exhausted (aggregateMessage (some (es (k + rem - 1)))) (k + rem) st2 := by
  intro rem
  induction rem with
  | zero => intro k st le h; exact absurd rfl h
  | succ r ih =>
    intro k st le _ hb hrl
    have hb0 := hb 0 (Nat.succ_pos r)
    have hrl0 := hrl 0 (Nat.succ_pos r)
    simp only [Nat.add_zero] at hb0 hrl0
    rw [failoverLoop_step_rl behave r k st le (es k) hb0 hrl0]
    cases r with
    | zero =>
      refine ⟨rotateToNextService (recordServiceFailure st k), ?_⟩
      simp [failoverLoop]
    | succ r2 =>
      obtain ⟨st2, hst2⟩ := ih (k + 1) (rotateToNextService (recordServiceFailure st k))
        (some (es k)) (Nat.succ_ne_zero r2)
        (fun j hj => by
          have := hb (j + 1) (by omega)
          simpa [Nat.add_assoc, Nat.add_comm 1 j] using this)
        (fun j hj => by
          have := hrl (j + 1) (by omega)
          simpa [Nat.add_assoc, Nat.add_comm 1 j] using this)
      refine ⟨st2, ?_⟩
      rw [hst2]
      have h1 : k + 1 + (r2 + 1) - 1 = k + (r2 + 1 + 1) - 1 := by omega
      have h2 : k + 1 + (r2 + 1) = k + (r2 + 1 + 1) := by omega
      rw [h1, h2]

/-- C2: with a non-empty service list whose every attempt fails
rate-limit-classified, `send` makes exactly `3 * N` attempts, never
succeeds, and throws the aggregate error embedding the last failure's
message. -/
theorem failover_send_exhausts_when_all_rate_limited
    (behave : Nat → Outcome) (es : Nat → FailError) (st : FState)
    (hN : st.services ≠ [])
    (hb : ∀ k, k < 3 * st.services.length → behave k = .err (es k))
    (hrl : ∀ k, k < 3 * st.services.length → isRateLimitError (es k) = true) :
    ∃ st2,
      failoverSend behave st =
        .exhausted (aggregateMessage (some (es (3 * st.services.length - 1))))
          (3 * st.services.length) st2 ∧
      ((es (3 * st.services.length - 1)).message ≠ "" →
        containsSub (es (3 * st.services.length - 1)).message.data
          (aggregateMessage (some (es (3 * st.services.length - 1)))).data = true) := by
  have hlen : st.services.length ≠ 0 := fun h => hN (List.eq_nil_of_length_eq_zero h)
  have h3 : 3 * st.services.length ≠ 0 := by omega
  obtain ⟨st2, hst2⟩ := failoverLoop_all_rate_limited behave es (3 * st.services.length) 0 st none
    h3 (fun j hj => by simpa using hb j (by omega))
    (fun j hj => by simpa using hrl j (by omega))
  refine ⟨st2, ?_, ?_⟩
  · simpa [failoverSend] using hst2
  · intro hmsg
    set e := es (3 * st.services.length - 1) with he
    have hagg : aggregateMessage (some e) = "All services exhausted. Last error: " ++ e.message := by
      simp [aggregateMessage, hmsg]
    rw [hagg, String.data_append]
    apply containsSub_append_self
    intro hd
    exact hmsg (String.ext (by rw [hd]))

/-- Witness for C2: two services, every attempt failing with HTTP 429;
exactly six attempts and the aggregate error. -/
theorem failover_send_exhausts_when_all_rate_limited_witness :
    ∃ st2,
      failoverSend (fun _ => .err { status := some 429, message := "boom" })
          { services := [{}, {}], currentIndex := 0 } =
        .exhausted "All services exhausted. Last error: boom" 6 st2 := by
  obtain ⟨st2, h1, _⟩ := failover_send_exhausts_when_all_rate_limited
    (fun _ => .err { status := some 429, message := "boom" })
    (fun _ => { status := some 429, message := "boom" })
    { services := [{}, {}], currentIndex := 0 }
    (by simp) (fun k _ => rfl) (fun k _ => rfl)
  exact ⟨st2, h1⟩

/-- C3: a non-rate-limit error on the first attempt is thrown to the caller
after exactly one attempt, with no rotation of `currentIndex`. -/
theorem failover_send_propagates_non_rate_limit
    (behave : Nat → Outcome) (st : FState) (e : FailError)
    (hN : st.services ≠ [])
    (h0 : behave 0 = .err e)
    (hnrl : isRateLimitError e = false) :
    failoverSend behave st = .thrown e 1 (recordServiceFailure st 0) ∧
    (recordServiceFailure st 0).currentIndex = st.currentIndex := by
  have hlen : st.services.length ≠ 0 := fun h => hN (List.eq_nil_of_length_eq_zero h)
  have hsucc : 3 * st.services.length = (3 * st.services.length - 1) + 1 := by omega
  constructor
  · show failoverLoop behave (3 * st.services.length) 0 st none = _
    rw [hsucc, failoverLoop_step_throw behave _ 0 st none e h0 hnrl]
  · rfl

theorem failureCountAt_record (st : FState) (t : Nat) :
    failureCountAt (recordServiceFailure st t) st.currentIndex =
      (failureCountAt st st.currentIndex).map (· + 1) := by
  simp only [failureCountAt, recordServiceFailure, updateAt_getElem_self, Option.map_map]
  rfl

theorem lastFailureAt_record (st : FState) (t : Nat)
    (hidx : st.currentIndex < st.services.length) :
    lastFailureAt (recordServiceFailure st t) st.currentIndex = some (some t) := by
  simp only [lastFailureAt, recordServiceFailure, updateAt_getElem_self, Option.map_map]
  rw [List.getElem?_eq_getElem hidx]
  rfl

theorem failureCountAt_reset (st : FState)
    (hidx : st.currentIndex < st.services.length) :
    failureCountAt (resetCurrentFailures st) st.currentIndex = some 0 := by
  simp only [failureCountAt, resetCurrentFailures, updateAt_getElem_self, Option.map_map]
  rw [List.getElem?_eq_getElem hidx]
  rfl

/-- C4: attempt-level semantics of `FailoverAgent.send`.
(i) an error is rate-limit-classified exactly when `status || code` is 429 or
the lower-cased message contains one of the seven fixed substrings;
(ii) a rate-limit-classified failure increments the current service's
failure count, records its last-failure time, advances `currentIndex` to
`(currentIndex + 1) % N` and retries;
(iii) a success resets the current service's failure count to 0 and returns
the result. -/
theorem failover_attempt_semantics
    (behave : Nat → Outcome) (rem k : Nat) (st : FState) (le : Option FailError)
    (e : FailError) (m : Message)
    (hidx : st.currentIndex < st.services.length) :
    (isRateLimitError e = true ↔
      (errorCode e = some 429 ∨
        ∃ ind ∈ rateLimitIndicators, containsSub ind.data (lowStr e.message).data = true)) ∧
    (behave k = .err e → isRateLimitError e = true →
      failoverLoop behave (rem + 1) k st le =
        failoverLoop behave rem (k + 1) (rotateToNextService (recordServiceFailure st k))
          (some e) ∧
      (rotateToNextService (recordServiceFailure st k)).currentIndex =
        (st.currentIndex + 1) % st.services.length ∧
      failureCountAt (recordServiceFailure st k) st.currentIndex =
        (failureCountAt st st.currentIndex).map (· + 1) ∧
      lastFailureAt (recordServiceFailure st k) st.currentIndex = some (some k)) ∧
    (behave k = .ok m →
      failoverLoop behave (rem + 1) k st le = .success m (k + 1) (resetCurrentFailures st) ∧
      failureCountAt (resetCurrentFailures st) st.currentIndex = some 0) := by
  refine ⟨?_, ?_, ?_⟩
  · by_cases hc : errorCode e = some 429
    · simp [isRateLimitError, hc]
    · simp only [isRateLimitError, hc, if_false, List.any_eq_true, false_or]
  · intro hb hrl
    refine ⟨failoverLoop_step_rl behave rem k st le e hb hrl, ?_, ?_, ?_⟩
    · show (st.currentIndex + 1) %
        (updateAt st.services st.currentIndex _).length =
        (st.currentIndex + 1) % st.services.length
      rw [updateAt_length]
    · exact failureCountAt_record st k
    · exact lastFailureAt_record st k hidx
  · intro hb
    exact ⟨failoverLoop_step_ok behave rem k st le m hb, failureCountAt_reset st hidx⟩

/-- Witness for C4 at a concrete rate-limited error, a concrete success and a
one-service state. -/
theorem failover_attempt_semantics_witness :
    (isRateLimitError { message := "Rate limit reached" } = true ↔
      (errorCode { message := "Rate limit reached" } = some 429 ∨
        ∃ ind ∈ rateLimitIndicators,
          containsSub ind.data (lowStr "Rate limit reached").data = true)) ∧
    (failoverLoop (fun _ => .err { message := "Rate limit reached" }) 1 0
        { services := [{}], currentIndex := 0 } none =
      failoverLoop (fun _ => .err { message := "Rate limit reached" }) 0 1
        (rotateToNextService
          (recordServiceFailure { services := [{}], currentIndex := 0 } 0))
        (some { message := "Rate limit reached" })) ∧
    (rotateToNextService
        (recordServiceFailure { services := [{}], currentIndex := 0 } 0)).currentIndex = 0 ∧
    (failoverLoop (fun _ => .ok { role := .assistant, content := "hi" }) 1 0
        { services := [{}], currentIndex := 0 } none =
      .success { role := .assistant, content := "hi" } 1
        (resetCurrentFailures { services := [{}], currentIndex := 0 })) := by
  have h1 := failover_attempt_semantics (fun _ => .err { message := "Rate limit reached" })
    0 0 { services := [{}], currentIndex := 0 } none
    { message := "Rate limit reached" } { role := .assistant, content := "hi" }
    (by decide)
  have h2 := failover_attempt_semantics (fun _ => .ok { role := .assistant, content := "hi" })
    0 0 { services := [{}], currentIndex := 0 } none
    { message := "Rate limit reached" } { role := .assistant, content := "hi" }
    (by decide)
  obtain ⟨hstep, hrot, _, _⟩ := h1.2.1 rfl (by decide)
  exact ⟨h1.1, hstep, hrot, (h2.2.2 rfl).1⟩

/-- C10 (implicit): every failed attempt — rate-limit-classified or not —
records the failure (failure count incremented, last-failure time set)
before the error is classified; non-rate-limit errors are then thrown with
the failure already recorded. -/
theorem failover_every_failure_recorded
    (behave : Nat → Outcome) (rem k : Nat) (st : FState) (le : Option FailError)
    (e : FailError)
    (hidx : st.currentIndex < st.services.length)
    (hb : behave k = .err e) :
    failoverLoop behave (rem + 1) k st le =
      (if isRateLimitError e then
        failoverLoop behave rem (k + 1) (rotateToNextService (recordServiceFailure st k))
          (some e)
      else .thrown e (k + 1) (recordServiceFailure st k)) ∧
    failureCountAt (recordServiceFailure st k) st.currentIndex =
      (failureCountAt st st.currentIndex).map (· + 1) ∧
    lastFailureAt (recordServiceFailure st k) st.currentIndex = some (some k) ∧
    (isRateLimitError e = false →
      failoverLoop behave (rem + 1) k st le = .thrown e (k + 1) (recordServiceFailure st k)) := by
  refine ⟨?_, failureCountAt_record st k, lastFailureAt_record st k hidx, ?_⟩
  · by_cases hrl : isRateLimitError e
    · rw [if_pos hrl]
      exact failoverLoop_step_rl behave rem k st le e hb hrl
    · rw [if_neg hrl]
      exact failoverLoop_step_throw behave rem k st le e hb (by simpa using hrl)
  · intro hrl
    exact failoverLoop_step_throw behave rem k st le e hb hrl

/-- Witness for C10 at a concrete non-rate-limit error. -/
theorem failover_every_failure_recorded_witness :
    failureCountAt
        (recordServiceFailure { services := [{}], currentIndex := 0 } 0) 0 = some 1 ∧
    lastFailureAt
        (recordServiceFailure { services := [{}], currentIndex := 0 } 0) 0 = some (some 0) ∧
    failoverLoop (fun _ => .err { status := some 500, message := "boom" }) 1 0
        { services := [{}], currentIndex := 0 } none =
      .thrown { status := some 500, message := "boom" } 1
        (recordServiceFailure { services := [{}], currentIndex := 0 } 0) := by
  obtain ⟨_, hcount, hlast, hthrow⟩ := failover_every_failure_recorded
    (fun _ => .err { status := some 500, message := "boom" }) 0 0
    { services := [{}], currentIndex := 0 } none
    { status := some 500, message := "boom" } (by decide) rfl
  refine ⟨?_, hlast, hthrow (by decide)⟩
  simpa [failureCountAt] using hcount

/-- Witness for C3: a 400-class error is thrown after one attempt. -/
theorem failover_send_propagates_non_rate_limit_witness :
    failoverSend (fun _ => .err { status := some 400, message := "malformed request body" })
        { services := [{}, {}], currentIndex := 0 } =
      .thrown { status := some 400, message := "malformed request body" } 1
        (recordServiceFailure { services := [{}, {}], currentIndex := 0 } 0) ∧
    (recordServiceFailure { services := [{}, {}], currentIndex := 0 } 0).currentIndex = 0 :=
  failover_send_propagates_non_rate_limit _ _ _ (by simp) rfl (by decide)

/-! ## Scanner lemmas (C1) -/

theorem toNat_ofNat_valid {n : Nat} (h : n.isValidChar) : (Char.ofNat n).toNat = n := by
  simp [Char.ofNat, h, Char.ofNatAux, Char.toNat, UInt32.toNat]

/-- Lower-casing never produces `<` from another character. -/
theorem lowChar_eq_lt_iff {c : Char} : (lowChar c = '<') ↔ c = '<' := by
  unfold lowChar
  split
  case isTrue h =>
    constructor
    · intro heq
      exfalso
      have hval : (c.toNat + 32).isValidChar := Or.inl (by omega)
      have htn : (Char.ofNat (c.toNat + 32)).toNat = c.toNat + 32 := toNat_ofNat_valid hval
      rw [heq] at htn
      have h60 : ('<').toNat = 60 := by decide
      omega
    · intro heq
      exfalso
      rw [heq] at h
      have h60 : ('<').toNat = 60 := by decide
      omega
  case isFalse h => exact Iff.rfl

theorem notMem_lowList_lt {u : List Char} (hu : '<' ∉ u) : '<' ∉ lowList u := by
  intro hmem
  rw [lowList, List.mem_map] at hmem
  obtain ⟨c, hc, heq⟩ := hmem
  exact hu ((lowChar_eq_lt_iff.mp heq) ▸ hc)

theorem lowList_append (a b : List Char) : lowList (a ++ b) = lowList a ++ lowList b := by
  simp [lowList]

theorem lowList_spanOpen : lowList "<ToolCall>".data = openTagJoined := by decide

theorem lowList_spanClose : lowList "</ToolCall>".data = closeTagJoined := by decide

/-- Single unfolding of the substring scan. -/
theorem containsSub_cons_eq (pat : List Char) (a : Char) (s : List Char) :
    containsSub pat (a :: s) = (pat.isPrefixOf (a :: s) || containsSub pat s) := rfl

theorem closeJ_not_prefix_of_open_append (z : List Char) :
    closeTagJoined.isPrefixOf ('<' :: ("toolcall>".data ++ z)) = false := rfl

theorem closeU_not_prefix_of_open_append (z : List Char) :
    closeTagUnderscore.isPrefixOf ('<' :: ("toolcall>".data ++ z)) = false := rfl

/-- No closing tag occurs in `<toolcall>` followed by a `<`-free block and a
block shorter than the tag. -/
theorem containsSub_close_sections (pat : List Char) (p2 : Char) (ps m t : List Char)
    (hpat : pat = '<' :: p2 :: ps)
    (hhead : pat.isPrefixOf ('<' :: ("toolcall>".data ++ (m ++ t))) = false)
    (hm : '<' ∉ m) (hlen : t.length < pat.length) :
    containsSub pat (openTagJoined ++ (m ++ t)) = false := by
  have hshape : openTagJoined ++ (m ++ t) = '<' :: ("toolcall>".data ++ (m ++ t)) := rfl
  rw [hshape, containsSub_cons_eq, hhead, Bool.false_or]
  have hassoc : "toolcall>".data ++ (m ++ t) = ("toolcall>".data ++ m) ++ t := by
    rw [List.append_assoc]
  rw [hassoc, hpat]
  rw [containsSub_append_of_head_notMem (by
    intro hmem
    rcases List.mem_append.mp hmem with h1 | h2
    · revert h1
      decide
    · exact hm h2)]
  exact containsSub_eq_false_of_length (by rw [hpat] at hlen; simpa using hlen)

theorem containsCloseTag_sections (m t : List Char) (hm : '<' ∉ m)
    (hlen : t.length < 11) :
    containsCloseTag (openTagJoined ++ (m ++ t)) = false := by
  unfold containsCloseTag
  rw [containsSub_close_sections closeTagJoined '/' "toolcall>".data m t rfl
      (closeJ_not_prefix_of_open_append _) hm (by
        have h11 : closeTagJoined.length = 11 := by decide
        omega)]
  rw [containsSub_close_sections closeTagUnderscore '/' "tool_call>".data m t rfl
      (closeU_not_prefix_of_open_append _) hm (by
        have h12 : closeTagUnderscore.length = 12 := by decide
        omega)]
  rfl

theorem containsCloseTag_drop_false {s : List Char} {n : Nat}
    (h : containsCloseTag s = false) : containsCloseTag (s.drop n) = false := by
  unfold containsCloseTag at h ⊢
  rcases Bool.or_eq_false_iff.mp h with ⟨h1, h2⟩
  rw [Bool.or_eq_false_iff]
  constructor
  · cases hc : containsSub closeTagJoined (s.drop n) with
    | false => rfl
    | true => rw [containsSub_of_drop hc] at h1; exact h1
  · cases hc : containsSub closeTagUnderscore (s.drop n) with
    | false => rfl
    | true => rw [containsSub_of_drop hc] at h2; exact h2

theorem containsCloseTag_tail_false {a : Char} {s : List Char}
    (h : containsCloseTag (a :: s) = false) : containsCloseTag s = false := by
  have := containsCloseTag_drop_false (n := 1) h
  simpa using this

/-- Without a closing tag anywhere there is no complete pair. -/
theorem hasCompletePairLow_of_close_free {s : List Char}
    (h : containsCloseTag s = false) : hasCompletePairLow s = false := by
  induction s with
  | nil => rfl
  | cons a rest ih =>
    have hd10 := containsCloseTag_drop_false (n := 10) h
    have hd11 := containsCloseTag_drop_false (n := 11) h
    simp only [hasCompletePairLow, hd10, hd11, Bool.and_false, Bool.false_or]
    exact ih (containsCloseTag_tail_false h)

/-- A buffer starting with an opening tag and containing a closing tag after
it has a complete pair. -/
theorem hasCompletePairLow_of_head {s : List Char}
    (h1 : openTagJoined.isPrefixOf s = true)
    (h2 : containsCloseTag (s.drop 10) = true) :
    hasCompletePairLow s = true := by
  cases s with
  | nil => simp [openTagJoined, List.isPrefixOf] at h1
  | cons a rest =>
    simp only [hasCompletePairLow]
    rw [h1, h2]
    simp

/-- Any buffer beginning with the literal opening tag passes the buffering
grammar, whatever follows. -/
theorem prefixGrammar_open_any (r : List Char) :
    prefixGrammar ("<ToolCall>".data ++ r) = true := by
  unfold prefixGrammar startsOpenTag
  rw [lowList_append, lowList_spanOpen]
  have hdw : (openTagJoined ++ lowList r).dropWhile jsWhitespace =
      openTagJoined ++ lowList r := by
    have hshape : openTagJoined ++ lowList r = '<' :: ("toolcall>".data ++ lowList r) := rfl
    have hws : jsWhitespace '<' = false := by decide
    rw [hshape, List.dropWhile_cons, hws]
    simp
  simp [hdw, isPrefixOf_append_self]

/-- The whole span: grammar passes and the complete pair fires. -/
theorem span_full_props (p : List Char) :
    prefixGrammar (spanText p) = true ∧ hasCompletePair (spanText p) = true := by
  constructor
  · unfold spanText
    exact prefixGrammar_open_any _
  · unfold hasCompletePair spanText
    rw [lowList_append, lowList_append, lowList_spanOpen, lowList_spanClose,
      List.append_assoc]
    apply hasCompletePairLow_of_head
    · exact isPrefixOf_append_self _ _
    · have hdrop : (openTagJoined ++ (lowList p ++ closeTagJoined)).drop 10 =
          lowList p ++ closeTagJoined := List.drop_left' (by decide)
      rw [hdrop]
      unfold containsCloseTag
      have hcs : containsSub closeTagJoined (lowList p ++ closeTagJoined) = true :=
        containsSub_append_self (by decide) (lowList p)
      rw [hcs]
      simp

/-- Every proper non-empty prefix of a span whose payload is `<`-free keeps
the scanner buffering: the grammar matches and no complete pair is found. -/
theorem span_proper_prefix_props (p q : List Char) (hp : '<' ∉ p)
    (hq : q <+: spanText p) (hne : q ≠ []) (hproper : q ≠ spanText p) :
    prefixGrammar q = true ∧ hasCompletePair q = false := by
  rcases le_or_lt q.length 10 with hle | hgt
  · -- q is a prefix of the opening tag
    have htake := List.prefix_iff_eq_take.mp hq
    have hq10 : q = "<ToolCall>".data.take q.length := by
      conv_lhs => rw [htake]
      unfold spanText
      have h10 : ("<ToolCall>".data).length = 10 := by decide
      rw [List.append_assoc, List.take_append_of_le_length (by omega)]
    have hlen0 : q.length ≠ 0 := by
      intro h0
      exact hne (List.eq_nil_of_length_eq_zero h0)
    have hk : ∀ k, k ≤ 10 → k ≠ 0 →
        prefixGrammar ("<ToolCall>".data.take k) = true ∧
        hasCompletePair ("<ToolCall>".data.take k) = false := by decide
    rw [hq10]
    exact hk q.length hle hlen0
  · -- q = opening tag ++ r
    have hsplit : ∃ r, q = "<ToolCall>".data ++ r ∧ r <+: p ++ "</ToolCall>".data := by
      rcases prefix_append_cases (a := "<ToolCall>".data)
          (b := p ++ "</ToolCall>".data) (by
            unfold spanText at hq
            simpa using hq) with hcase | ⟨t, ht1, ht2⟩
      · exfalso
        have hlenq := hcase.length_le
        have h10 : ("<ToolCall>".data).length = 10 := by decide
        omega
      · exact ⟨t, ht1, ht2⟩
    obtain ⟨r, hreq, hrpre⟩ := hsplit
    have hrne : r ≠ p ++ "</ToolCall>".data := by
      intro hcon
      apply hproper
      rw [hreq, hcon]
      rfl
    constructor
    · rw [hreq]; exact prefixGrammar_open_any r
    · rw [hreq]
      unfold hasCompletePair
      rw [lowList_append, lowList_spanOpen]
      -- split r into a piece of the payload and a proper prefix of the close tag
      have hparts : ∃ m t, lowList r = m ++ t ∧ '<' ∉ m ∧ t.length < 11 := by
        rcases prefix_append_cases hrpre with hcase | ⟨t, ht1, ht2⟩
        · exact ⟨lowList r, [], by simp, notMem_lowList_lt (fun hmem => hp (hcase.subset hmem)), by simp⟩
        · refine ⟨lowList p, lowList t, by rw [ht1, lowList_append], notMem_lowList_lt hp, ?_⟩
          have htmt : t ≠ "</ToolCall>".data := by
            intro hcon
            exact hrne (by rw [ht1, hcon])
          have hlt : t.length < 11 := by
            have hle := ht2.length_le
            simp at hle
            rcases Nat.lt_or_ge t.length 11 with h | h
            · exact h
            · exfalso
              apply htmt
              have hl11 : t.length = 11 := by omega
              have := List.prefix_iff_eq_take.mp ht2
              rw [this, hl11]
              rw [List.take_of_length_le (by simp)]
          simpa [lowList] using hlt
      obtain ⟨m, t, hmt, hm, hlen⟩ := hparts
      rw [hmt]
      exact hasCompletePairLow_of_close_free (containsCloseTag_sections m t hm hlen)

/-- Single unfolding of the chunk loop. -/
theorem scanChunks_cons (st : ScanState) (c : List Char) (cs : List (List Char)) :
    scanChunks st (c :: cs) =
      ((scanChunks (scanChunk st c).1 cs).1,
       (scanChunk st c).2 ++ (scanChunks (scanChunk st c).1 cs).2) := rfl

theorem scanChunks_append (st : ScanState) (xs ys : List (List Char)) :
    scanChunks st (xs ++ ys) =
      ((scanChunks (scanChunks st xs).1 ys).1,
       (scanChunks st xs).2 ++ (scanChunks (scanChunks st xs).1 ys).2) := by
  induction xs generalizing st with
  | nil => rfl
  | cons c cs ih =>
    rw [List.cons_append, scanChunks_cons, ih, scanChunks_cons]
    simp [List.append_assoc]

/-- Fragments free of `<` pass straight through an idle scanner. -/
theorem scanChunks_prose (cs : List (List Char)) (h : ∀ c ∈ cs, '<' ∉ c) :
    ∀ fc, scanChunks { toolBuffer := [], fullContent := fc } cs =
      ({ toolBuffer := [], fullContent := fc ++ cs.flatten }, cs) := by
  induction cs with
  | nil => intro fc; simp [scanChunks]
  | cons c cs ih =>
    intro fc
    have hc : containsLt c = false := by
      have hmem := h c (List.mem_cons_self c cs)
      simp only [containsLt]
      simpa using hmem
    have hchunk : scanChunk { toolBuffer := [], fullContent := fc } c =
        ({ toolBuffer := [], fullContent := fc ++ c }, [c]) := by
      unfold scanChunk
      simp [hc]
    rw [scanChunks_cons, hchunk]
    rw [ih (fun d hd => h d (List.mem_cons_of_mem c hd)) (fc ++ c)]
    simp [List.append_assoc]

/-- Any chunking of one whole span (payload `<`-free), starting from an idle
scanner or from a buffered proper prefix of the span, is silently absorbed:
nothing is emitted and the buffer ends empty. -/
theorem scanChunks_span_aux (p : List Char) (hp : '<' ∉ p) :
    ∀ cs pre fc, cs ≠ [] → (∀ c ∈ cs, c ≠ []) →
      pre ++ cs.flatten = spanText p → pre ≠ spanText p → pre <+: spanText p →
      scanChunks { toolBuffer := pre, fullContent := fc } cs =
        ({ toolBuffer := [], fullContent := fc ++ cs.flatten }, []) := by
  intro cs
  induction cs with
  | nil => intro pre fc hne; exact absurd rfl hne
  | cons c cs ih =>
    intro pre fc _ hnonempty hjoin hproper hpre
    have hcne : c ≠ [] := hnonempty c (List.mem_cons_self c cs)
    have hbranch : (!pre.isEmpty || containsLt c) = true := by
      cases hpe : pre with
      | nil =>
        -- the head fragment starts the span, hence starts with the literal `<`
        have hchead : c <+: spanText p := by
          subst hpe
          simp only [List.nil_append] at hjoin
          rw [← hjoin]
          cases cs with
          | nil => simp
          | cons d ds =>
            exact ⟨(d :: ds).flatten, by simp⟩
        have hex : ∃ w, c = '<' :: w := by
          cases hc : c with
          | nil => exact absurd hc hcne
          | cons x w =>
            rw [hc] at hchead
            obtain ⟨u, hu⟩ := hchead
            have hx : x = '<' := by
              have hhead := congrArg (fun l => l.head?) hu
              simp [spanText] at hhead
              exact hhead
            exact ⟨w, by rw [hx]⟩
        obtain ⟨w, hw⟩ := hex
        rw [hw]
        simp [containsLt]
      | cons a as => simp
    cases cs with
    | nil =>
      -- last fragment: the buffer becomes the whole span and is discarded
      have hbuf : pre ++ c = spanText p := by
        simpa using hjoin
      have hfull := span_full_props p
      have hchunk : scanChunk { toolBuffer := pre, fullContent := fc } c =
          ({ toolBuffer := [], fullContent := fc ++ c }, []) := by
        unfold scanChunk
        dsimp only
        simp [hbranch, hbuf, hfull.1, hfull.2]
      rw [scanChunks_cons, hchunk]
      simp [scanChunks]
    | cons d ds =>
      -- middle fragment: the buffer stays a proper non-empty prefix
      have hflatne : (d :: ds).flatten ≠ [] := by
        have hdne : d ≠ [] := hnonempty d (by simp)
        simp only [List.flatten_cons]
        intro hcon
        exact hdne (List.append_eq_nil.mp hcon).1
      have hjoin2 : (pre ++ c) ++ (d :: ds).flatten = spanText p := by
        rw [List.append_assoc]
        simpa using hjoin
      have hpre2 : (pre ++ c) <+: spanText p := ⟨(d :: ds).flatten, hjoin2⟩
      have hproper2 : pre ++ c ≠ spanText p := by
        intro hcon
        rw [hcon] at hjoin2
        have h0 : spanText p ++ (d :: ds).flatten = spanText p ++ [] := by
          simpa using hjoin2
        exact hflatne (List.append_cancel_left h0)
      have hbufne : pre ++ c ≠ [] := by
        intro hcon
        exact hcne (List.append_eq_nil.mp hcon).2
      have hprops := span_proper_prefix_props p (pre ++ c) hp hpre2 hbufne hproper2
      have hchunk : scanChunk { toolBuffer := pre, fullContent := fc } c =
          ({ toolBuffer := pre ++ c, fullContent := fc ++ c }, []) := by
        unfold scanChunk
        dsimp only
        simp [hbranch, hprops.1, hprops.2]
      rw [scanChunks_cons, hchunk]
      rw [ih (pre ++ c) (fc ++ c) (by simp) (fun x hx => hnonempty x (by simp [hx]))
        hjoin2 hproper2 hpre2]
      simp [List.append_assoc]

/-- Processing an aligned fragmentation: the scanner ends idle and emits
exactly the prose fragments. -/
theorem scanChunks_fragmentation {segs : List Seg} {frags : List (List Char)}
    (h : Fragmentation segs frags) :
    ∀ fc, ∃ out, scanChunks { toolBuffer := [], fullContent := fc } frags =
      ({ toolBuffer := [], fullContent := fc ++ frags.flatten }, out) ∧
      out.flatten = proseText segs := by
  induction h with
  | nil => intro fc; exact ⟨[], by simp [scanChunks], rfl⟩
  | prose hp hcs hne hrest ih =>
    intro fc
    rename_i p cs segs fs
    obtain ⟨out, hscan, hout⟩ := ih (fc ++ cs.flatten)
    refine ⟨cs ++ out, ?_, ?_⟩
    · rw [scanChunks_append]
      rw [scanChunks_prose cs (fun c hc => ?_) fc]
      · simp only
        rw [hscan]
        simp [List.append_assoc]
      · intro hxc
        have hxp : '<' ∈ p := by
          rw [← hcs]
          exact List.mem_flatten.mpr ⟨c, hc, hxc⟩
        exact hp hxp
    · simp only [List.flatten_append, hout, hcs, proseText]
  | span hp hcs hne hrest ih =>
    intro fc
    rename_i p cs segs fs
    obtain ⟨out, hscan, hout⟩ := ih (fc ++ cs.flatten)
    have hcsne : cs ≠ [] := by
      intro hcon
      rw [hcon] at hcs
      simp [spanText] at hcs
    refine ⟨out, ?_, ?_⟩
    · rw [scanChunks_append]
      rw [scanChunks_span_aux p hp cs [] fc hcsne hne (by simpa using hcs)
        (by simp [spanText]) (by simp)]
      simp only
      rw [hscan]
      simp [List.append_assoc]
    · simpa [proseText] using hout

/-! ## Claim theorems for the streaming tag scanner -/

/-- C1 counterexample: for the text `<ToolCall>x</ToolCall>tail`, delivering
the whole text as one fragment emits nothing (the scanner drops the text
after the closing tag together with the buffered span), while splitting at
the closing tag emits `tail`; so the emitted content neither equals the text
with the span removed nor is independent of the chunking. -/
theorem scanner_chunking_counterexample :
    emittedContent ["<ToolCall>x</ToolCall>tail".data] = [] ∧
    emittedContent ["<ToolCall>x</ToolCall>".data, "tail".data] = "tail".data ∧
    "<ToolCall>x</ToolCall>tail".data =
      "<ToolCall>x</ToolCall>".data ++ "tail".data ∧
    ("tail".data : List Char) ≠ [] := by
  refine ⟨?_, ?_, ?_, ?_⟩ <;> decide

/-- C1 as amended: for a text alternating `<`-free prose blocks and
well-formed `<ToolCall>...</ToolCall>` spans with `<`-free payloads, and any
fragmentation in which each span starts at a fragment boundary and ends at a
fragment end (its interior and the prose may be split anywhere), the
concatenation of the emitted content fragments equals the original text with
the tool-call spans removed, independent of the chunking. -/
theorem scanner_chunk_independence_for_aligned_fragmentations
    (segs : List Seg) (frags : List (List Char)) (h : Fragmentation segs frags) :
    emittedContent frags = proseText segs := by
  obtain ⟨out, hscan, hout⟩ := scanChunks_fragmentation h []
  unfold emittedContent
  rw [hscan]
  simp [scanFlush, hout]

/-- Witness for the amended C1: prose, a span split in the middle of its
opening tag, and trailing prose. -/
theorem scanner_chunk_independence_witness :
    emittedContent
        ["a".data, "b".data, "<To".data, "olCall>x</ToolCall>".data, "cd".data] =
      "abcd".data := by
  have hfrag : Fragmentation
      [Seg.prose "ab".data, Seg.span "x".data, Seg.prose "cd".data]
      ((["a".data, "b".data] ++ (["<To".data, "olCall>x</ToolCall>".data] ++
        (["cd".data] ++ ([] : List (List Char)))))) := by
    apply Fragmentation.prose (by decide) (by decide) (by decide)
    apply Fragmentation.span (by decide) (by decide) (by decide)
    apply Fragmentation.prose (by decide) (by decide) (by decide)
    exact Fragmentation.nil
  have h := scanner_chunk_independence_for_aligned_fragmentations _ _ hfrag
  have h2 : proseText [Seg.prose "ab".data, Seg.span "x".data, Seg.prose "cd".data] =
      "abcd".data := by decide
  exact h.trans h2

/-! ## Dispatch loop lemmas (C5, C6) -/

/-- A reply without tool calls (absent or empty array) is pushed to history
and returned unchanged. -/
theorem sendAgent_step_no_tools (oracle : Nat → Message) (tools : List AgentTool)
    (fuel callIdx : Nat) (st : AgState) (msgOpt : Option Message)
    (h : (oracle callIdx).toolCalls = none ∨ (oracle callIdx).toolCalls = some []) :
    sendAgent oracle tools (fuel + 1) callIdx st msgOpt =
      some (oracle callIdx,
        { history := (pushedHistory st msgOpt).history ++ [oracle callIdx] }) := by
  rcases h with h | h <;> simp [sendAgent, h]

/-- A reply with tool calls resolves them, pushes the tool-result messages,
recurses, and merges. -/
theorem sendAgent_step_tools (oracle : Nat → Message) (tools : List AgentTool)
    (fuel callIdx : Nat) (st : AgState) (msgOpt : Option Message) (tcs : List ToolCall)
    (htc : (oracle callIdx).toolCalls = some tcs) (hne : tcs ≠ []) :
    sendAgent oracle tools (fuel + 1) callIdx st msgOpt =
      (match sendAgent oracle tools fuel (callIdx + 1)
          (afterDispatchState st msgOpt (oracle callIdx) (tcs.map (resolveCall tools)))
          none with
        | none => none
        | some (newReply, st3) =>
          some (mergeReplies (oracle callIdx) newReply (tcs.map (resolveCall tools)),
            st3)) := by
  cases tcs with
  | nil => exact absurd rfl hne
  | cons a l => simp [sendAgent, htc]

/-- The dispatch loop only appends to history. -/
theorem sendAgent_history_extends (oracle : Nat → Message) (tools : List AgentTool) :
    ∀ fuel callIdx st msgOpt m st2,
      sendAgent oracle tools fuel callIdx st msgOpt = some (m, st2) →
      ∃ d, st2.history = st.history ++ d := by
  intro fuel
  induction fuel with
  | zero => intro callIdx st msgOpt m st2 h; simp [sendAgent] at h
  | succ f ih =>
    intro callIdx st msgOpt m st2 h
    cases htc : (oracle callIdx).toolCalls with
    | none =>
      rw [sendAgent_step_no_tools oracle tools f callIdx st msgOpt (Or.inl htc)] at h
      obtain ⟨h1, h2⟩ := Prod.mk.injEq .. ▸ (Option.some.injEq .. ▸ h)
      subst h2
      cases msgOpt with
      | none => exact ⟨[oracle callIdx], by simp [pushedHistory]⟩
      | some m2 => exact ⟨m2 :: [oracle callIdx], by simp [pushedHistory]⟩
    | some tcs =>
      cases tcs with
      | nil =>
        rw [sendAgent_step_no_tools oracle tools f callIdx st msgOpt (Or.inr htc)] at h
        obtain ⟨h1, h2⟩ := Prod.mk.injEq .. ▸ (Option.some.injEq .. ▸ h)
        subst h2
        cases msgOpt with
        | none => exact ⟨[oracle callIdx], by simp [pushedHistory]⟩
        | some m2 => exact ⟨m2 :: [oracle callIdx], by simp [pushedHistory]⟩
      | cons a l =>
        rw [sendAgent_step_tools oracle tools f callIdx st msgOpt (a :: l) htc
          (by simp)] at h
        cases hrec : sendAgent oracle tools f (callIdx + 1)
            (afterDispatchState st msgOpt (oracle callIdx)
              ((a :: l).map (resolveCall tools))) none with
        | none => rw [hrec] at h; simp at h
        | some pr =>
          obtain ⟨nr, st3⟩ := pr
          rw [hrec] at h
          simp only [Option.some.injEq, Prod.mk.injEq] at h
          obtain ⟨d, hd⟩ := ih (callIdx + 1) _ none nr st3 hrec
          obtain ⟨hm, hst⟩ := h
          subst hst
          cases msgOpt with
          | none =>
            refine ⟨({ oracle callIdx with
                toolCalls := some ((a :: l).map (resolveCall tools)) } ::
              (((a :: l).map (resolveCall tools)).map ToolCall.message ++ d)), ?_⟩
            rw [hd]
            simp [afterDispatchState, pushedHistory, List.append_assoc]
          | some m2 =>
            refine ⟨(m2 :: ({ oracle callIdx with
                toolCalls := some ((a :: l).map (resolveCall tools)) } ::
              (((a :: l).map (resolveCall tools)).map ToolCall.message ++ d))), ?_⟩
            rw [hd]
            simp [afterDispatchState, pushedHistory, List.append_assoc]

/-- The first message a recursive hop appends is its own assistant reply
(the resolved variant when it carries tool calls). -/
theorem sendAgent_first_push (oracle : Nat → Message) (tools : List AgentTool)
    (fuel callIdx : Nat) (st : AgState) (m : Message) (st2 : AgState)
    (h : sendAgent oracle tools fuel callIdx st none = some (m, st2)) :
    ∃ r tail, st2.history = st.history ++ (r :: tail) ∧
      r.content = (oracle callIdx).content ∧ r.role = (oracle callIdx).role := by
  cases fuel with
  | zero => simp [sendAgent] at h
  | succ f =>
    cases htc : (oracle callIdx).toolCalls with
    | none =>
      rw [sendAgent_step_no_tools oracle tools f callIdx st none (Or.inl htc)] at h
      obtain ⟨h1, h2⟩ := Prod.mk.injEq .. ▸ (Option.some.injEq .. ▸ h)
      exact ⟨oracle callIdx, [], by rw [← h2]; simp [pushedHistory], rfl, rfl⟩
    | some tcs =>
      cases tcs with
      | nil =>
        rw [sendAgent_step_no_tools oracle tools f callIdx st none (Or.inr htc)] at h
        obtain ⟨h1, h2⟩ := Prod.mk.injEq .. ▸ (Option.some.injEq .. ▸ h)
        exact ⟨oracle callIdx, [], by rw [← h2]; simp [pushedHistory], rfl, rfl⟩
      | cons a l =>
        rw [sendAgent_step_tools oracle tools f callIdx st none (a :: l) htc
          (by simp)] at h
        cases hrec : sendAgent oracle tools f (callIdx + 1)
            (afterDispatchState st none (oracle callIdx)
              ((a :: l).map (resolveCall tools))) none with
        | none => rw [hrec] at h; simp at h
        | some pr =>
          obtain ⟨nr, st3⟩ := pr
          rw [hrec] at h
          simp only [Option.some.injEq, Prod.mk.injEq] at h
          obtain ⟨d, hd⟩ := sendAgent_history_extends oracle tools f (callIdx + 1)
            _ none nr st3 hrec
          refine ⟨{ oracle callIdx with
              toolCalls := some ((a :: l).map (resolveCall tools)) },
            (((a :: l).map (resolveCall tools)).map ToolCall.message ++ d), ?_, rfl, rfl⟩
          rw [← h.2, hd]
          simp [afterDispatchState, pushedHistory, List.append_assoc]

/-! ## Claim theorems for the dispatch loop -/

/-- C5: a reply carrying tool calls yields, after the recursive hop, a
merged message whose content joins the two contents with a separator and
whose `toolCalls` is the concatenation, in hop order, of the original
reply's calls (as resolved in place) with the recursive reply's calls; a
reply carrying no tool calls is returned unchanged. -/
theorem agent_send_merges_toolcall_replies
    (oracle : Nat → Message) (tools : List AgentTool) (fuel callIdx : Nat)
    (st : AgState) (msgOpt : Option Message) (tcs : List ToolCall)
    (newReply : Message) (st3 : AgState) :
    ((oracle callIdx).toolCalls = some tcs → tcs ≠ [] →
      sendAgent oracle tools fuel (callIdx + 1)
          (afterDispatchState st msgOpt (oracle callIdx) (tcs.map (resolveCall tools)))
          none =
        some (newReply, st3) →
      sendAgent oracle tools (fuel + 1) callIdx st msgOpt =
        some (mergeReplies (oracle callIdx) newReply (tcs.map (resolveCall tools)),
          st3) ∧
      (mergeReplies (oracle callIdx) newReply (tcs.map (resolveCall tools))).content =
        (oracle callIdx).content ++ "\n" ++ newReply.content ∧
      (mergeReplies (oracle callIdx) newReply (tcs.map (resolveCall tools))).toolCalls =
        some (tcs.map (resolveCall tools) ++ (match newReply.toolCalls with
          | some l => l
          | none => []))) ∧
    (((oracle callIdx).toolCalls = none ∨ (oracle callIdx).toolCalls = some []) →
      sendAgent oracle tools (fuel + 1) callIdx st msgOpt =
        some (oracle callIdx,
          { history := (pushedHistory st msgOpt).history ++ [oracle callIdx] })) := by
  constructor
  · intro htc hne hrec
    refine ⟨?_, rfl, rfl⟩
    rw [sendAgent_step_tools oracle tools fuel callIdx st msgOpt tcs htc hne, hrec]
  · exact sendAgent_step_no_tools oracle tools fuel callIdx st msgOpt

/-- Witness for C5: a two-call reply merged with a plain follow-up reply. -/
theorem agent_send_merges_toolcall_replies_witness :
    sendAgent demoOracle demoTools 2 0 {} none =
      some (mergeReplies (demoOracle 0) (demoOracle 1)
          ([demoCall1, demoCall2].map (resolveCall demoTools)),
        { history := (afterDispatchState {} none (demoOracle 0)
            ([demoCall1, demoCall2].map (resolveCall demoTools))).history ++
          [demoOracle 1] }) := by
  have h := (agent_send_merges_toolcall_replies demoOracle demoTools 1 0 {} none
    [demoCall1, demoCall2] (demoOracle 1)
    { history := (afterDispatchState {} none (demoOracle 0)
        ([demoCall1, demoCall2].map (resolveCall demoTools))).history ++
      [demoOracle 1] }).1 rfl (by simp) rfl
  exact h.1

/-- C6: after a `send` whose reply carries `k` tool calls, the history holds
the assistant reply (with the resolved calls) followed immediately by
exactly `k` tool-result messages of role `tool`, the `i`-th being the
message of the `i`-th call, all preceding the assistant message of the
recursive follow-up hop. -/
theorem agent_history_tool_results_in_order
    (oracle : Nat → Message) (tools : List AgentTool) (fuel callIdx : Nat)
    (st : AgState) (msgOpt : Option Message) (tcs : List ToolCall)
    (newReply : Message) (st3 : AgState)
    (htc : (oracle callIdx).toolCalls = some tcs) (hne : tcs ≠ [])
    (hrec : sendAgent oracle tools fuel (callIdx + 1)
        (afterDispatchState st msgOpt (oracle callIdx) (tcs.map (resolveCall tools)))
        none =
      some (newReply, st3)) :
    ∃ r rest,
      st3.history = (pushedHistory st msgOpt).history ++
        ({ oracle callIdx with toolCalls := some (tcs.map (resolveCall tools)) } ::
          ((tcs.map (resolveCall tools)).map ToolCall.message ++ (r :: rest))) ∧
      ((tcs.map (resolveCall tools)).map ToolCall.message).length = tcs.length ∧
      (∀ tm ∈ (tcs.map (resolveCall tools)).map ToolCall.message, tm.role = .tool) ∧
      (∀ i : Nat, ((tcs.map (resolveCall tools)).map ToolCall.message)[i]? =
        (tcs[i]?).map (fun tc => (resolveCall tools tc).message)) ∧
      r.content = (oracle (callIdx + 1)).content ∧
      r.role = (oracle (callIdx + 1)).role := by
  obtain ⟨r, tail, hh, hcont, hrole⟩ :=
    sendAgent_first_push oracle tools fuel (callIdx + 1) _ newReply st3 hrec
  refine ⟨r, tail, ?_, by simp, ?_, ?_, hcont, hrole⟩
  · rw [hh]
    simp [afterDispatchState, pushedHistory, List.append_assoc]
  · intro tm htm
    rw [List.mem_map] at htm
    obtain ⟨tc, _, htc2⟩ := htm
    rw [← htc2]
    rfl
  · intro i
    rw [List.getElem?_map, List.getElem?_map, Option.map_map]
    rfl

/-- Witness for C6: the two tool-result messages sit in call order. -/
theorem agent_history_tool_results_in_order_witness :
    (([demoCall1, demoCall2].map (resolveCall demoTools)).map ToolCall.message).length =
      2 ∧
    (([demoCall1, demoCall2].map (resolveCall demoTools)).map ToolCall.message)[0]? =
      ([demoCall1, demoCall2][0]?).map (fun tc => (resolveCall demoTools tc).message) ∧
    (([demoCall1, demoCall2].map (resolveCall demoTools)).map ToolCall.message)[1]? =
      ([demoCall1, demoCall2][1]?).map (fun tc => (resolveCall demoTools tc).message) := by
  obtain ⟨r, rest, h1, h2, h3, h4, h5, h6⟩ :=
    agent_history_tool_results_in_order demoOracle demoTools 1 0 {} none
      [demoCall1, demoCall2] (demoOracle 1)
      { history := (afterDispatchState {} none (demoOracle 0)
          ([demoCall1, demoCall2].map (resolveCall demoTools))).history ++
        [demoOracle 1] }
      rfl (by simp) rfl
  exact ⟨h2, h4 0, h4 1⟩

/-! ## Decimal representation lemmas (for the synthesized ids of C9) -/

theorem digitChar_isDigit : ∀ m, m < 10 → (Nat.digitChar m).isDigit = true := by decide

theorem toDigitsCore_all_digits :
    ∀ (fuel n : Nat) (ds : List Char), (∀ c ∈ ds, c.isDigit = true) →
      ∀ c ∈ Nat.toDigitsCore 10 fuel n ds, c.isDigit = true := by
  intro fuel
  induction fuel with
  | zero =>
    intro n ds hds c hc
    exact hds c (by simpa [Nat.toDigitsCore] using hc)
  | succ f ih =>
    intro n ds hds c hc
    simp only [Nat.toDigitsCore] at hc
    by_cases h0 : n / 10 = 0
    · rw [if_pos h0] at hc
      rcases List.mem_cons.mp hc with h | h
      · rw [h]
        exact digitChar_isDigit _ (Nat.mod_lt _ (by omega))
      · exact hds c h
    · rw [if_neg h0] at hc
      refine ih (n / 10) (Nat.digitChar (n % 10) :: ds) ?_ c hc
      intro d hd
      rcases List.mem_cons.mp hd with h | h
      · rw [h]
        exact digitChar_isDigit _ (Nat.mod_lt _ (by omega))
      · exact hds d h

theorem natRepr_data_digits (n : Nat) : ∀ c ∈ (Nat.repr n).data, c.isDigit = true := by
  intro c hc
  exact toDigitsCore_all_digits (n + 1) n [] (by simp) c
    (by simpa [Nat.repr, Nat.toDigits, List.asString] using hc)

theorem natRepr_no_dash (n : Nat) : '-' ∉ (Nat.repr n).data := by
  intro h
  exact absurd (natRepr_data_digits n _ h) (by decide)

/-- Value of a most-significant-first digit string. -/
def decVal : List Char → Nat
  | [] => 0
  | c :: cs => (c.toNat - 48) * 10 ^ cs.length + decVal cs

theorem toDigitsCore_decVal :
    ∀ (fuel n : Nat) (ds : List Char), n < 10 ^ fuel →
      decVal (Nat.toDigitsCore 10 fuel n ds) = n * 10 ^ ds.length + decVal ds := by
  intro fuel
  induction fuel with
  | zero =>
    intro n ds h
    have hn : n = 0 := by simpa using h
    subst hn
    simp [Nat.toDigitsCore]
  | succ f ih =>
    intro n ds h
    simp only [Nat.toDigitsCore]
    have hd : ∀ m, m < 10 → (Nat.digitChar m).toNat - 48 = m := by decide
    by_cases h0 : n / 10 = 0
    · rw [if_pos h0]
      have hn : n < 10 := by
        have := Nat.div_add_mod n 10
        have hm := Nat.mod_lt n (show 0 < 10 by omega)
        omega
      have hm : n % 10 = n := Nat.mod_eq_of_lt hn
      rw [hm]
      simp [decVal, hd n hn]
    · rw [if_neg h0]
      have hlt : n / 10 < 10 ^ f := by
        have h10 : (10 : Nat) ^ (f + 1) = 10 * 10 ^ f := by ring
        rw [h10] at h
        exact Nat.div_lt_of_lt_mul h
      rw [ih (n / 10) (Nat.digitChar (n % 10) :: ds) hlt]
      simp only [decVal, List.length_cons]
      rw [hd (n % 10) (Nat.mod_lt n (by omega))]
      have hpow : (10 : Nat) ^ (ds.length + 1) = 10 ^ ds.length * 10 := by ring
      rw [hpow]
      have hsum : 10 * (n / 10) + n % 10 = n := Nat.div_add_mod n 10
      have hexp : n / 10 * (10 ^ ds.length * 10) + (n % 10 * 10 ^ ds.length + decVal ds) =
          (10 * (n / 10) + n % 10) * 10 ^ ds.length + decVal ds := by ring
      rw [hexp, hsum]

theorem decVal_natRepr (n : Nat) : decVal (Nat.repr n).data = n := by
  have hlt : n < 10 ^ (n + 1) := by
    have h1 : n < 10 ^ n := Nat.lt_pow_self (by omega) n
    have h2 : (10 : Nat) ^ n ≤ 10 ^ (n + 1) := Nat.pow_le_pow_right (by omega) (by omega)
    omega
  have := toDigitsCore_decVal (n + 1) n [] hlt
  simpa [Nat.repr, Nat.toDigits, List.asString, decVal] using this

theorem natRepr_inj {m n : Nat} (h : Nat.repr m = Nat.repr n) : m = n := by
  have hdata := congrArg String.data h
  have hm := decVal_natRepr m
  have hn := decVal_natRepr n
  rw [← hm, ← hn, hdata]

/-- A separator-headed split with separator-free prefixes is unique. -/
theorem sep_split_inj {sep : Char} :
    ∀ (u1 u2 x1 x2 : List Char), sep ∉ u1 → sep ∉ u2 →
      u1 ++ sep :: x1 = u2 ++ sep :: x2 → u1 = u2 ∧ x1 = x2 := by
  intro u1
  induction u1 with
  | nil =>
    intro u2 x1 x2 h1 h2 heq
    cases u2 with
    | nil => simpa using heq
    | cons b bs =>
      exfalso
      rw [List.nil_append, List.cons_append, List.cons.injEq] at heq
      exact h2 (heq.1 ▸ List.mem_cons_self b bs)
  | cons a as ih =>
    intro u2 x1 x2 h1 h2 heq
    cases u2 with
    | nil =>
      exfalso
      rw [List.nil_append, List.cons_append, List.cons.injEq] at heq
      exact h1 (heq.1 ▸ List.mem_cons_self a as)
    | cons b bs =>
      rw [List.cons_append, List.cons_append, List.cons.injEq] at heq
      obtain ⟨hab, htail⟩ := heq
      obtain ⟨hu, hx⟩ := ih bs x1 x2 (fun hmem => h1 (List.mem_cons_of_mem a hmem))
        (fun hmem => h2 (List.mem_cons_of_mem b hmem)) htail
      exact ⟨by rw [hab, hu], hx⟩

theorem synthId_inj {nm1 nm2 : String} {i1 i2 t1 t2 : Nat}
    (h : synthId nm1 i1 t1 = synthId nm2 i2 t2) : i1 = i2 ∧ t1 = t2 := by
  have hdata := congrArg String.data h
  simp only [synthId, String.data_append] at hdata
  have hrev := congrArg List.reverse hdata
  simp only [List.reverse_append, List.reverse_cons, List.reverse_nil, List.nil_append,
    List.append_assoc, List.cons_append, List.singleton_append] at hrev
  have hstep1 := sep_split_inj (Nat.repr t1).data.reverse (Nat.repr t2).data.reverse
    _ _ (by simpa using natRepr_no_dash t1) (by simpa using natRepr_no_dash t2) hrev
  obtain ⟨ht, hrest⟩ := hstep1
  have ht12 : t1 = t2 := by
    apply natRepr_inj
    apply String.ext
    have := congrArg List.reverse ht
    simpa using this
  have hstep2 := sep_split_inj (Nat.repr i1).data.reverse (Nat.repr i2).data.reverse
    _ _ (by simpa using natRepr_no_dash i1) (by simpa using natRepr_no_dash i2) hrest
  obtain ⟨hi, _⟩ := hstep2
  have hi12 : i1 = i2 := by
    apply natRepr_inj
    apply String.ext
    have := congrArg List.reverse hi
    simpa using this
  exact ⟨hi12, ht12⟩

/-! ## Extractor lemmas (C7, C8, C9) -/

/-- The span loop only appends to the shared accumulator. -/
theorem pushJsonEntries_acc (clock : Nat → Nat) :
    ∀ (arr : List Json) (acc : List ToolCall) (ctr i : Nat),
      pushJsonEntries clock acc ctr i arr =
        (acc ++ (pushJsonEntries clock [] ctr i arr).1,
         (pushJsonEntries clock [] ctr i arr).2) := by
  intro arr
  induction arr with
  | nil => intro acc ctr i; simp [pushJsonEntries]
  | cons tc rest ih =>
    intro acc ctr i
    simp only [pushJsonEntries]
    cases hj : jsonEntryToCall clock ctr i tc with
    | mk oc ctr2 =>
      cases oc with
      | none => simp
      | some c =>
        dsimp only
        rw [ih (acc ++ [c]) ctr2 (i + 1), ih ([] ++ [c]) ctr2 (i + 1)]
        simp [List.append_assoc]

theorem processJsonSpan_acc (clock : Nat → Nat) (acc : List ToolCall × Nat)
    (g : List Char) :
    processJsonSpan clock acc g =
      (acc.1 ++ (processJsonSpan clock ([], acc.2) g).1,
       (processJsonSpan clock ([], acc.2) g).2) := by
  unfold processJsonSpan
  cases Json.parse ⟨g⟩ with
  | none => simp
  | some j => simpa using pushJsonEntries_acc clock (asArray j) acc.1 acc.2 0

theorem json_fold_batches (clock : Nat → Nat) :
    ∀ (gs : List (List Char)) (acc : List ToolCall) (ctr : Nat),
      gs.foldl (fun a g => processJsonSpan clock a g) (acc, ctr) =
        (acc ++ (jsonSpanBatches clock ctr gs).1.flatten,
         (jsonSpanBatches clock ctr gs).2) := by
  intro gs
  induction gs with
  | nil => intro acc ctr; simp [jsonSpanBatches]
  | cons g gs ih =>
    intro acc ctr
    simp only [List.foldl_cons, jsonSpanBatches]
    rw [processJsonSpan_acc clock (acc, ctr) g]
    rw [ih]
    simp [List.append_assoc]

theorem xml_fold_batches (clock : Nat → Nat) :
    ∀ (prs : List (List Char × List Char)) (acc : List ToolCall) (ctr : Nat),
      prs.foldl (fun a pr =>
          (a.1 ++ [(xmlSpanCall clock a.2 pr.1 pr.2).1],
           (xmlSpanCall clock a.2 pr.1 pr.2).2)) (acc, ctr) =
        (acc ++ (xmlSpanBatches clock ctr prs).1.flatten,
         (xmlSpanBatches clock ctr prs).2) := by
  intro prs
  induction prs with
  | nil => intro acc ctr; simp [xmlSpanBatches]
  | cons pr prs ih =>
    intro acc ctr
    simp only [List.foldl_cons, xmlSpanBatches]
    rw [ih]
    simp [List.append_assoc]

/-- An unparseable span is an empty batch. -/
theorem jsonSpanBatches_failed_span (clock : Nat → Nat) :
    ∀ (gs : List (List Char)) (ctr i : Nat) (g : List Char),
      gs[i]? = some g → Json.parse ⟨g⟩ = none →
      ((jsonSpanBatches clock ctr gs).1)[i]? = some [] := by
  intro gs
  induction gs with
  | nil => intro ctr i g h; simp at h
  | cons g0 gs ih =>
    intro ctr i g hg hp
    cases i with
    | zero =>
      simp only [List.getElem?_cons_zero, Option.some.injEq] at hg
      subst hg
      simp [jsonSpanBatches, processJsonSpan, hp]
    | succ n =>
      simp only [List.getElem?_cons_succ] at hg
      simpa [jsonSpanBatches] using ih _ n g hg hp

/-! ## Claim theorems for the extractor -/

/-- C7: tool-call extraction is total and processes spans independently: the
result is the concatenation of per-span batches (JSON dialect first, then
XML dialect), and a span whose captured payload fails `JSON.parse`
contributes the empty batch while all other spans' calls are still
returned. -/
theorem parse_tool_calls_isolates_spans (clock : Nat → Nat) (text : String) :
    parseToolCallsFromText clock text =
      ((jsonSpanBatches clock 0 (jsonGroups text.data)).1).flatten ++
      ((xmlSpanBatches clock (jsonSpanBatches clock 0 (jsonGroups text.data)).2
        (xmlMatches text.data)).1).flatten ∧
    (∀ (i : Nat) (g : List Char), (jsonGroups text.data)[i]? = some g →
      Json.parse ⟨g⟩ = none →
      ((jsonSpanBatches clock 0 (jsonGroups text.data)).1)[i]? = some []) := by
  constructor
  · unfold parseToolCallsFromText
    rw [json_fold_batches clock (jsonGroups text.data) [] 0]
    dsimp only [List.nil_append]
    rw [xml_fold_batches clock (xmlMatches text.data)]
  · intro i g hg hp
    exact jsonSpanBatches_failed_span clock (jsonGroups text.data) 0 i g hg hp

/-- Witness for C7: a malformed span contributes nothing; the later
well-formed span is still extracted. -/
theorem parse_tool_calls_isolates_spans_witness :
    ((jsonSpanBatches (fun _ => 7) 0
        (jsonGroups "<ToolCall>\x7bbad\x7d</ToolCall><ToolCall>\x7b\"tool\":\"F\"\x7d</ToolCall>".data)).1)[0]? =
      some [] ∧
    parseToolCallsFromText (fun _ => 7)
        "<ToolCall>\x7bbad\x7d</ToolCall><ToolCall>\x7b\"tool\":\"F\"\x7d</ToolCall>" =
      [{ id := .str "F-0-7", name := .str "F", args := .obj [] }] :=
  ⟨(parse_tool_calls_isolates_spans (fun _ => 7)
      "<ToolCall>\x7bbad\x7d</ToolCall><ToolCall>\x7b\"tool\":\"F\"\x7d</ToolCall>").2
    0 "\x7bbad\x7d".data rfl rfl, rfl⟩

/-- C8: the JSON dialect.  Concretely,
`<ToolCall>{"tool":"Foo","parameters":{"a":1}}</ToolCall>` yields exactly one
call named `Foo` with args `{a:1}`; in general the name falls back from
`name` to `tool`, the args from `parameters` to `args` to `arguments`, and a
string-valued args payload is parsed again as JSON. -/
theorem json_dialect_extraction (clock : Nat → Nat) (ctr i : Nat) (tc : Json)
    (v w : Json) (s2 : String) (a : Json) :
    parseToolCallsFromText clock
        "<ToolCall>\x7b\"tool\":\"Foo\",\"parameters\":\x7b\"a\":1\x7d\x7d</ToolCall>" =
      [{ id := .str ("Foo-0-" ++ Nat.repr (clock 0)), name := .str "Foo",
         args := .obj [("a", .num "1")] }] ∧
    (∀ c ctr2, getField tc "name" = some v → v ≠ .null →
      jsonEntryToCall clock ctr i tc = (some c, ctr2) → c.name = v) ∧
    (∀ c ctr2, (getField tc "name" = none ∨ getField tc "name" = some .null) →
      getField tc "tool" = some w → w ≠ .null →
      jsonEntryToCall clock ctr i tc = (some c, ctr2) → c.name = w) ∧
    (∀ c ctr2, getField tc "parameters" = some (.str s2) → Json.parse s2 = some a →
      jsonEntryToCall clock ctr i tc = (some c, ctr2) → c.args = a) ∧
    (∀ c ctr2, (getField tc "parameters" = none ∨ getField tc "parameters" = some .null) →
      (getField tc "args" = none ∨ getField tc "args" = some .null) →
      getField tc "arguments" = some w → w ≠ .null → (∀ s3 : String, w ≠ .str s3) →
      jsonEntryToCall clock ctr i tc = (some c, ctr2) → c.args = w) := by
  refine ⟨rfl, ?_, ?_, ?_, ?_⟩
  · intro c ctr2 hname hv h
    have hco : jsCoalesce (some v) (getField tc "tool") = some v := by
      cases v
      case null => exact absurd rfl hv
      all_goals rfl
    unfold jsonEntryToCall at h
    rw [hname, hco] at h
    dsimp only at h
    split at h
    all_goals try split at h
    all_goals
      injection h with h1 h2
      first
        | exact Option.noConfusion h1
        | (injection h1 with h1
           subst h1
           rfl)
  · intro c ctr2 hname htool hw h
    unfold jsonEntryToCall at h
    rcases hname with hname | hname
    · rw [hname, htool] at h
      rw [show jsCoalesce none (some w) = some w from rfl] at h
      dsimp only at h
      split at h
      all_goals try split at h
      all_goals
        injection h with h1 h2
        first
          | exact Option.noConfusion h1
          | (injection h1 with h1
             subst h1
             rfl)
    · rw [hname, htool] at h
      rw [show jsCoalesce (some .null) (some w) = some w from rfl] at h
      dsimp only at h
      split at h
      all_goals try split at h
      all_goals
        injection h with h1 h2
        first
          | exact Option.noConfusion h1
          | (injection h1 with h1
             subst h1
             rfl)
  · intro c ctr2 hp hparse h
    unfold jsonEntryToCall at h
    rw [hp] at h
    rw [show ∀ b, jsCoalesce (some (.str s2)) b = some (.str s2) from fun b => rfl] at h
    dsimp only at h
    rw [hparse] at h
    dsimp only at h
    injection h with h1 h2
    injection h1 with h1
    subst h1
    rfl
  · intro c ctr2 hp ha hargs hw hws h
    have hco : jsCoalesce (getField tc "parameters")
        (jsCoalesce (getField tc "args") (getField tc "arguments")) = some w := by
      rcases hp with hp | hp <;> rcases ha with ha | ha <;>
        rw [hp, ha, hargs] <;> rfl
    unfold jsonEntryToCall at h
    rw [hco] at h
    cases w
    case str s4 => exact absurd rfl (hws s4)
    all_goals
      dsimp only at h
      injection h with h1 h2
      injection h1 with h1
      subst h1
      rfl

/-- Witness for C8: alias fallbacks on a concrete object with a
double-encoded argument string. -/
theorem json_dialect_extraction_witness :
    parseToolCallsFromText (fun _ => 7)
        "<ToolCall>\x7b\"tool\":\"Foo\",\"parameters\":\x7b\"a\":1\x7d\x7d</ToolCall>" =
      [{ id := .str "Foo-0-7", name := .str "Foo", args := .obj [("a", .num "1")] }] ∧
    ({ id := .str "B-0-7", name := .str "B",
       args := .obj [("x", .num "2")] } : ToolCall).name = .str "B" ∧
    ({ id := .str "B-0-7", name := .str "B",
       args := .obj [("x", .num "2")] } : ToolCall).args = .obj [("x", .num "2")] := by
  have h := json_dialect_extraction (fun _ => 7) 0 0
    (.obj [("tool", .str "B"), ("parameters", .str "\x7b\"x\":2\x7d")])
    (.str "B") (.str "B") "\x7b\"x\":2\x7d" (.obj [("x", .num "2")])
  refine ⟨h.1, ?_, ?_⟩
  · exact h.2.2.1 { id := .str "B-0-7", name := .str "B", args := .obj [("x", .num "2")] }
      1 (Or.inl rfl) rfl (by simp) rfl
  · exact h.2.2.2.1 { id := .str "B-0-7", name := .str "B", args := .obj [("x", .num "2")] }
      1 rfl rfl rfl

/-- C9 counterexample: two spans, each a single call of the same tool name
without an id, produce the same synthesized id `F-0-<t>` when the clock does
not advance between the two `Date.now()` reads (the per-span entry index
restarts at 0), so ids in one extraction batch are not pairwise distinct. -/
theorem duplicate_synthesized_ids_counterexample :
    (parseToolCallsFromText (fun _ => 7)
        "<ToolCall>\x7b\"tool\":\"F\"\x7d</ToolCall><ToolCall>\x7b\"tool\":\"F\"\x7d</ToolCall>").map
      ToolCall.id = [.str "F-0-7", .str "F-0-7"] := rfl

/-- A call built from an id-less entry carries the synthesized id
`name-index-timestamp`. -/
theorem jsonEntryToCall_synth_id (clock : Nat → Nat) (ctr i : Nat) (tc : Json)
    (hid : getField tc "id" = none ∨ getField tc "id" = some .null) :
    ∀ c ctr2, jsonEntryToCall clock ctr i tc = (some c, ctr2) →
      c.id = .str (synthId
        (jsShow (jsCoalesce (getField tc "name") (getField tc "tool"))) i (clock ctr)) ∧
      ctr2 = ctr + 1 := by
  intro c ctr2 h
  unfold jsonEntryToCall at h
  rcases hid with hid | hid <;> rw [hid] at h <;> dsimp only at h <;>
    split at h
  all_goals try split at h
  all_goals
    injection h with h1 h2
    first
      | exact Option.noConfusion h1
      | (injection h1 with h1
         subst h1
         subst h2
         exact ⟨rfl, rfl⟩)

/-- Strengthened induction for the span loop: each produced call has a
synthesized id with an index at least the starting index, and the ids are
pairwise distinct. -/
theorem pushJsonEntries_ids (clock : Nat → Nat) :
    ∀ (arr : List Json) (ctr i : Nat),
      (∀ tc ∈ arr, getField tc "id" = none ∨ getField tc "id" = some .null) →
      (∀ c ∈ (pushJsonEntries clock [] ctr i arr).1,
        ∃ nm t j, i ≤ j ∧ c.id = .str (synthId nm j t)) ∧
      (pushJsonEntries clock [] ctr i arr).1.Pairwise (fun c1 c2 => c1.id ≠ c2.id) := by
  intro arr
  induction arr with
  | nil => intro ctr i hid; simp [pushJsonEntries]
  | cons tc rest ih =>
    intro ctr i hid
    simp only [pushJsonEntries]
    cases hj : jsonEntryToCall clock ctr i tc with
    | mk oc ctr2 =>
      cases oc with
      | none => simp
      | some c =>
        obtain ⟨hcid, hctr2⟩ := jsonEntryToCall_synth_id clock ctr i tc
          (hid tc (List.mem_cons_self tc rest)) c ctr2 hj
        dsimp only
        rw [pushJsonEntries_acc clock rest ([] ++ [c]) ctr2 (i + 1)]
        have hrest := ih ctr2 (i + 1)
          (fun tc2 htc2 => hid tc2 (List.mem_cons_of_mem tc htc2))
        constructor
        · intro c2 hc2
          simp only [List.cons_append, List.nil_append, List.mem_cons] at hc2
          rcases hc2 with hc2 | hc2
          · exact ⟨_, _, i, Nat.le_refl i, by rw [hc2, hcid]⟩
          · obtain ⟨nm, t, j, hj2, hid2⟩ := hrest.1 c2 hc2
            exact ⟨nm, t, j, by omega, hid2⟩
        · simp only [List.cons_append, List.nil_append]
          rw [List.pairwise_cons]
          refine ⟨?_, hrest.2⟩
          intro c2 hc2 heq
          obtain ⟨nm, t, j, hj2, hid2⟩ := hrest.1 c2 hc2
          rw [hcid, hid2] at heq
          have hinj := synthId_inj (Json.str.inj heq)
          omega

/-- C9 as amended: the ids synthesized for the entries of one JSON span's
array (each entry lacking an id of its own) are pairwise distinct — the
entry index separates them — for every clock behaviour; uniqueness across
spans, or with model-supplied ids, does not hold. -/
theorem synthesized_ids_distinct_within_span (clock : Nat → Nat) (ctr : Nat)
    (arr : List Json)
    (hid : ∀ tc ∈ arr, getField tc "id" = none ∨ getField tc "id" = some .null) :
    (pushJsonEntries clock [] ctr 0 arr).1.Pairwise (fun c1 c2 => c1.id ≠ c2.id) :=
  (pushJsonEntries_ids clock arr ctr 0 hid).2

/-- Witness for the amended C9: two id-less entries of the same name under a
constant clock still get distinct ids. -/
theorem synthesized_ids_distinct_within_span_witness :
    (pushJsonEntries (fun _ => 7) [] 0 0
        [Json.obj [("tool", Json.str "F")], Json.obj [("tool", Json.str "F")]]).1.Pairwise
      (fun c1 c2 => c1.id ≠ c2.id) :=
  synthesized_ids_distinct_within_span (fun _ => 7) 0
    [Json.obj [("tool", Json.str "F")], Json.obj [("tool", Json.str "F")]]
    (by intro tc htc
        rcases List.mem_cons.mp htc with h | h
        · subst h; exact Or.inl rfl
        · rcases List.mem_cons.mp h with h2 | h2
          · subst h2; exact Or.inl rfl
          · simp at h2)

end Fraimwork
